import Mathlib

/-!
Shallow embedding of the gossip spreading-time estimators from
`gossip_spreading_util.py` (DP-Gossip repository), together with proofs of
the specification claims about them.

Modelling conventions:
* node identifiers are natural numbers; the topology is `nl : List (List ℕ)`
  (index = node, entry = neighbor list), exactly like `neighbor_list`;
* probabilities and times are rationals; `np.random.rand()` draws and
  `np.random.choice` selections are supplied by deterministic random sources
  indexed by the logical choice they decide (round and node for the
  synchronous model, node and activation count for the asynchronous model),
  and `PoissonSample(1.0)` values are supplied the same way;
* a Python crash (`np.random.choice` on an empty list, an out-of-range
  index, `heappop` on an empty heap) is `none`; the unbounded `while True`
  loops are run on explicit fuel, with fuel exhaustion also `none`.
-/

namespace Gossip

set_option allowUnsafeReducibility true
attribute [local semireducible] Rat.add Rat.mul Rat.sub Rat.div Rat.inv

/-- Deterministic random source for the synchronous spreaders: `draw t i` is
the uniform draw consumed by node `i` in round `t`, and `choose t i` the
index deciding its neighbor selection in round `t`. -/
structure SyncRand where
  draw : ℕ → ℕ → ℚ
  choose : ℕ → ℕ → ℕ

/-- Deterministic random source for the asynchronous spreaders: `draw i k`
and `choose i k` decide node `i`'s `k`-th activation, and `delay i k` is the
exponential sample that schedules node `i`'s `k`-th activation. -/
structure AsyncRand where
  draw : ℕ → ℕ → ℚ
  choose : ℕ → ℕ → ℕ
  delay : ℕ → ℕ → ℚ

/-- Uniform choice from a list, decided by an index draw: `np.random.choice`
on a nonempty list; on an empty list the result is `none` (Python raises). -/
def pickNeighbor (lst : List ℕ) (k : ℕ) : Option ℕ :=
  lst[k % lst.length]?

/-- Insertion into a list kept in increasing order; the building block of the
canonical iteration order chosen for Python's set iteration. -/
def insertSorted (i : ℕ) : List ℕ → List ℕ
  | [] => [i]
  | j :: rest => if i ≤ j then i :: j :: rest else j :: insertSorted i rest

theorem insertSorted_comm (i j : ℕ) : ∀ l : List ℕ,
    insertSorted i (insertSorted j l) = insertSorted j (insertSorted i l) := by
  intro l
  induction l with
  | nil =>
    by_cases hij : i ≤ j
    · by_cases hji : j ≤ i
      · have h := Nat.le_antisymm hij hji
        subst h
        rfl
      · simp [insertSorted, hij, hji]
    · have hji : j ≤ i := Nat.le_of_not_le hij
      simp [insertSorted, hij, hji]
  | cons a l ih =>
    by_cases hia : i ≤ a <;> by_cases hja : j ≤ a
    · by_cases hij : i ≤ j
      · by_cases hji : j ≤ i
        · have h := Nat.le_antisymm hij hji
          subst h
          rfl
        · simp [insertSorted, hia, hja, hij, hji]
      · have hji : j ≤ i := Nat.le_of_not_le hij
        simp [insertSorted, hia, hja, hij, hji]
    · have hij : i ≤ j := hia.trans (Nat.le_of_lt (Nat.lt_of_not_le hja))
      have hji : ¬ j ≤ i := fun hc => hja (hc.trans hia)
      simp [insertSorted, hia, hja, hij, hji]
    · have hji : j ≤ i := hja.trans (Nat.le_of_lt (Nat.lt_of_not_le hia))
      have hij : ¬ i ≤ j := fun hc => hia (hc.trans hja)
      simp [insertSorted, hia, hja, hij, hji]
    · simp [insertSorted, hia, hja, ih]

instance : LeftCommutative insertSorted := ⟨insertSorted_comm⟩

/-- The canonical list of a finite node set, in increasing order: the
deterministic stand-in for Python's set iteration order. -/
def sortNodes (s : Finset ℕ) : List ℕ :=
  Multiset.foldr insertSorted [] s.val

theorem mem_insertSorted (x i : ℕ) : ∀ l : List ℕ,
    x ∈ insertSorted i l ↔ x = i ∨ x ∈ l := by
  intro l
  induction l with
  | nil => simp [insertSorted]
  | cons a l ih =>
    by_cases h : i ≤ a
    · simp [insertSorted, h]
    · simp only [insertSorted, if_neg h, List.mem_cons, ih]
      tauto

theorem mem_sortNodes {x : ℕ} {s : Finset ℕ} : x ∈ sortNodes s ↔ x ∈ s := by
  rw [sortNodes]
  have h : ∀ m : Multiset ℕ, x ∈ Multiset.foldr insertSorted [] m ↔ x ∈ m := by
    intro m
    induction m using Multiset.induction_on with
    | empty => simp
    | cons a m ih => simp [Multiset.foldr_cons, mem_insertSorted, ih]
  rw [h s.val]
  rfl

theorem sortNodes_singleton (i : ℕ) : sortNodes {i} = [i] := rfl

/-- One round of the exact synchronous spreader (`EstimateSynchronousGossipTime`
loop body): iterate over the start-of-round infected nodes, and for each one
that passes the failure draw, select a uniformly chosen neighbor and add it to
the accumulator of newly infected nodes.  `none` models the crash on an
out-of-range node or an empty neighbor list. -/
def syncRoundExact (r : SyncRand) (p : ℚ) (nl : List (List ℕ)) (t : ℕ) :
    List ℕ → Finset ℕ → Option (Finset ℕ)
  | [], acc => some acc
  | i :: rest, acc =>
    if p ≤ r.draw t i then
      match nl[i]? with
      | none => none
      | some lst =>
        match pickNeighbor lst (r.choose t i) with
        | none => none
        | some j => syncRoundExact r p nl t rest (insert j acc)
    else
      syncRoundExact r p nl t rest acc

/-- The fuel-indexed `while True` loop of `EstimateSynchronousGossipTime`:
run a round over the start-of-round infected set, merge the new infections,
increment the round counter and return it once the infected count reaches
`end_criteria * len(neighbor_list)`. -/
def runSyncExact (r : SyncRand) (p θ : ℚ) (nl : List (List ℕ)) :
    ℕ → ℕ → Finset ℕ → Option ℕ
  | 0, _, _ => none
  | fuel + 1, t, I =>
    match syncRoundExact r p nl t (sortNodes I) ∅ with
    | none => none
    | some newly =>
      if θ * nl.length ≤ (((I ∪ newly).card : ℚ)) then some (t + 1)
      else runSyncExact r p θ nl fuel (t + 1) (I ∪ newly)

/-- Embedding of `EstimateSynchronousGossipTime`.  The `number_of_nodes`
argument is accepted but, as in the source, never read. -/
def EstimateSynchronousGossipTime (source number_of_nodes : ℕ)
    (nl : List (List ℕ)) (p θ : ℚ) (r : SyncRand) (fuel : ℕ) : Option ℕ :=
  runSyncExact r p θ nl fuel 0 {source}

/-- One round of the fast synchronous spreader
(`FastEstimateSynchronousGossipTime` loop body): iterate over the frontier
(`useful_node_set`); a node whose whole neighbor set is already contained in
the *current* infected set (which is mutated during the round) is marked
useless and skipped, otherwise it attempts a push exactly as the exact
variant, with the chosen node inserted into both the infected set and the
newly-infected set immediately. -/
def syncRoundFast (r : SyncRand) (p : ℚ) (nl : List (List ℕ)) (t : ℕ) :
    List ℕ → Finset ℕ → Finset ℕ → Finset ℕ →
      Option (Finset ℕ × Finset ℕ × Finset ℕ)
  | [], J, useless, newly => some (J, useless, newly)
  | i :: rest, J, useless, newly =>
    match nl[i]? with
    | none => none
    | some lst =>
      if lst.toFinset ⊆ J then
        syncRoundFast r p nl t rest J (insert i useless) newly
      else if p ≤ r.draw t i then
        match pickNeighbor lst (r.choose t i) with
        | none => none
        | some j => syncRoundFast r p nl t rest (insert j J) useless (insert j newly)
      else
        syncRoundFast r p nl t rest J useless newly

/-- The fuel-indexed loop of `FastEstimateSynchronousGossipTime`: run a round
over the frontier, update the frontier to `(useful ∪ newly) \ useless`,
increment the counter and return it once the infected count reaches
`end_criteria * len(neighbor_list)`. -/
def runSyncFast (r : SyncRand) (p θ : ℚ) (nl : List (List ℕ)) :
    ℕ → ℕ → Finset ℕ → Finset ℕ → Option ℕ
  | 0, _, _, _ => none
  | fuel + 1, t, I, F =>
    match syncRoundFast r p nl t (sortNodes F) I ∅ ∅ with
    | none => none
    | some (I', useless, newly) =>
      if θ * nl.length ≤ ((I'.card : ℚ)) then some (t + 1)
      else runSyncFast r p θ nl fuel (t + 1) I' ((F ∪ newly) \ useless)

/-- Embedding of `FastEstimateSynchronousGossipTime`.  The `number_of_nodes`
argument is accepted but, as in the source, never read. -/
def FastEstimateSynchronousGossipTime (source number_of_nodes : ℕ)
    (nl : List (List ℕ)) (p θ : ℚ) (r : SyncRand) (fuel : ℕ) : Option ℕ :=
  runSyncFast r p θ nl fuel 0 {source} {source}

/-- State of an asynchronous simulation: the event heap (pairs of scheduled
time and node, multiset semantics), the infected set, and the number of
activations each node has had so far (used to index the random source). -/
structure AsyncState where
  heap : List (ℚ × ℕ)
  infected : Finset ℕ
  act : ℕ → ℕ

/-- The lexicographic order `heapq` uses on `(time, node)` tuples. -/
def lexLe (a b : ℚ × ℕ) : Prop :=
  a.1 < b.1 ∨ (a.1 = b.1 ∧ a.2 ≤ b.2)

instance (a b : ℚ × ℕ) : Decidable (lexLe a b) := by
  unfold lexLe; infer_instance

/-- Pop the `heapq`-least event: returns the lexicographically least
`(time, node)` pair and the remaining events, or `none` on an empty heap
(Python's `heappop` raises). -/
def popMin : List (ℚ × ℕ) → Option ((ℚ × ℕ) × List (ℚ × ℕ))
  | [] => none
  | e :: rest =>
    match popMin rest with
    | none => some (e, [])
    | some (m, rest') => if lexLe e m then some (e, rest) else some (m, e :: rest')

/-- One iteration of the `EstimateAsynchronousGossipTime` loop: pop the
earliest event `(t, i)`; if the failure draw passes, choose a uniform
neighbor of `i` and infect it; if the infected count now reaches the
threshold `θv` return `t`, otherwise reschedule `i` at `t + delay` and, when
the push infected a previously uninfected node, schedule that node's first
activation at `t + delay`. -/
def asyncStepExact (r : AsyncRand) (p θv : ℚ) (nl : List (List ℕ))
    (s : AsyncState) : Option (ℚ ⊕ AsyncState) :=
  match popMin s.heap with
  | none => none
  | some ((t, i), rest) =>
    let k := s.act i
    let pushResult : Option (Option ℕ) :=
      if p ≤ r.draw i k then
        match nl[i]? with
        | none => none
        | some lst => (pickNeighbor lst (r.choose i k)).map some
      else some none
    match pushResult with
    | none => none
    | some chosen =>
      let inf' := match chosen with
        | some j => insert j s.infected
        | none => s.infected
      if θv ≤ ((inf'.card : ℚ)) then some (Sum.inl t)
      else
        let newEvents := (t + r.delay i (k + 1), i) ::
          (match chosen with
            | some j => if j ∈ s.infected then [] else [(t + r.delay j 0, j)]
            | none => ([] : List (ℚ × ℕ)))
        some (Sum.inr ⟨newEvents ++ rest, inf', Function.update s.act i (k + 1)⟩)

/-- One iteration of the `FastEstimateAsynchronousGossipTime` loop: as the
exact variant, except that an event whose node's entire neighbor set is
already infected is discarded without a push attempt, without a threshold
check and without rescheduling. -/
def asyncStepFast (r : AsyncRand) (p θv : ℚ) (nl : List (List ℕ))
    (s : AsyncState) : Option (ℚ ⊕ AsyncState) :=
  match popMin s.heap with
  | none => none
  | some ((t, i), rest) =>
    match nl[i]? with
    | none => none
    | some lst =>
      if lst.toFinset ⊆ s.infected then some (Sum.inr ⟨rest, s.infected, s.act⟩)
      else
        let k := s.act i
        let pushResult : Option (Option ℕ) :=
          if p ≤ r.draw i k then (pickNeighbor lst (r.choose i k)).map some
          else some none
        match pushResult with
        | none => none
        | some chosen =>
          let inf' := match chosen with
            | some j => insert j s.infected
            | none => s.infected
          if θv ≤ ((inf'.card : ℚ)) then some (Sum.inl t)
          else
            let newEvents := (t + r.delay i (k + 1), i) ::
              (match chosen with
                | some j => if j ∈ s.infected then [] else [(t + r.delay j 0, j)]
                | none => ([] : List (ℚ × ℕ)))
            some (Sum.inr ⟨newEvents ++ rest, inf', Function.update s.act i (k + 1)⟩)

/-- Fuel-indexed driver for the asynchronous loops. -/
def runAsync (step : AsyncState → Option (ℚ ⊕ AsyncState)) :
    ℕ → AsyncState → Option ℚ
  | 0, _ => none
  | fuel + 1, s =>
    match step s with
    | none => none
    | some (Sum.inl t) => some t
    | some (Sum.inr s') => runAsync step fuel s'

/-- Initial asynchronous state: infected set `{source}` and one event for the
source at `0 + Exponential(1.0)`. -/
def asyncInit (r : AsyncRand) (source : ℕ) : AsyncState :=
  ⟨[(0 + r.delay source 0, source)], {source}, fun _ => 0⟩

/-- Embedding of `EstimateAsynchronousGossipTime`; the threshold compares
against `end_criteria * len(neighbor_list)`, and `number_of_nodes` is never
read. -/
def EstimateAsynchronousGossipTime (source number_of_nodes : ℕ)
    (nl : List (List ℕ)) (p θ : ℚ) (r : AsyncRand) (fuel : ℕ) : Option ℚ :=
  runAsync (asyncStepExact r p (θ * nl.length) nl) fuel (asyncInit r source)

/-- Embedding of `FastEstimateAsynchronousGossipTime`; unlike the other three
variants its threshold compares against `end_criteria * number_of_nodes`. -/
def FastEstimateAsynchronousGossipTime (source number_of_nodes : ℕ)
    (nl : List (List ℕ)) (p θ : ℚ) (r : AsyncRand) (fuel : ℕ) : Option ℚ :=
  runAsync (asyncStepFast r p (θ * number_of_nodes) nl) fuel (asyncInit r source)

/-! ### Basic facts about neighbor selection -/

/-- The uniformly chosen neighbor of node `i` in round `t` of a synchronous
spreader: `none` when `i` is out of range or has no neighbors (the crash). -/
def chosenOf (r : SyncRand) (nl : List (List ℕ)) (t i : ℕ) : Option ℕ :=
  (nl[i]?).bind fun lst => pickNeighbor lst (r.choose t i)

/-- The list of push targets a synchronous round generates from the node list
`l`: nodes failing the draw contribute nothing, the others contribute their
chosen neighbor. -/
def roundTargets (r : SyncRand) (p : ℚ) (nl : List (List ℕ)) (t : ℕ)
    (l : List ℕ) : List ℕ :=
  l.filterMap fun i => if p ≤ r.draw t i then chosenOf r nl t i else none

theorem pickNeighbor_isSome (lst : List ℕ) (k : ℕ) (h : lst ≠ []) :
    (pickNeighbor lst k).isSome := by
  unfold pickNeighbor
  have hlen : 0 < lst.length := List.length_pos.mpr h
  have hk : k % lst.length < lst.length := Nat.mod_lt _ hlen
  simp [List.getElem?_eq_getElem hk]

theorem pickNeighbor_mem {lst : List ℕ} {k j : ℕ}
    (h : pickNeighbor lst k = some j) : j ∈ lst := by
  unfold pickNeighbor at h
  exact List.getElem?_mem h

/-- Complete characterization of one exact synchronous round: it succeeds
exactly when every node passing its failure draw has a well-defined neighbor
choice, and then the accumulated set is extended by precisely the round's
push targets — each decided only by the round index and the node itself. -/
theorem syncRoundExact_eq_some_iff (r : SyncRand) (p : ℚ) (nl : List (List ℕ))
    (t : ℕ) : ∀ (l : List ℕ) (acc N : Finset ℕ),
    syncRoundExact r p nl t l acc = some N ↔
      ((∀ i ∈ l, p ≤ r.draw t i → (chosenOf r nl t i).isSome) ∧
        N = acc ∪ (roundTargets r p nl t l).toFinset) := by
  intro l
  induction l with
  | nil =>
    intro acc N
    constructor
    · intro h
      refine ⟨by simp, ?_⟩
      have hacc : acc = N := by simpa [syncRoundExact] using h
      simp [roundTargets, ← hacc]
    · rintro ⟨-, h⟩
      simp [syncRoundExact, h, roundTargets]
  | cons i rest ih =>
    intro acc N
    by_cases hdraw : p ≤ r.draw t i
    · cases hnl : nl[i]? with
      | none =>
        have hstep : syncRoundExact r p nl t (i :: rest) acc = none := by
          simp [syncRoundExact, hdraw, hnl]
        rw [hstep]
        constructor
        · intro h; cases h
        · rintro ⟨h, -⟩
          have h2 := h i (by simp) hdraw
          rw [chosenOf, hnl] at h2
          simp at h2
      | some lst =>
        cases hpick : pickNeighbor lst (r.choose t i) with
        | none =>
          have hstep : syncRoundExact r p nl t (i :: rest) acc = none := by
            simp [syncRoundExact, hdraw, hnl, hpick]
          rw [hstep]
          constructor
          · intro h; cases h
          · rintro ⟨h, -⟩
            have h2 := h i (by simp) hdraw
            rw [chosenOf, hnl] at h2
            simp [hpick] at h2
        | some j =>
          have hch : chosenOf r nl t i = some j := by
            rw [chosenOf, hnl]; simpa using hpick
          have htg : roundTargets r p nl t (i :: rest) =
              j :: roundTargets r p nl t rest := by
            simp [roundTargets, hdraw, hch]
          have hstep : syncRoundExact r p nl t (i :: rest) acc =
              syncRoundExact r p nl t rest (insert j acc) := by
            simp [syncRoundExact, hdraw, hnl, hpick]
          rw [hstep, ih, htg]
          constructor
          · rintro ⟨h1, h2⟩
            refine ⟨fun i' hi' hd' => ?_, ?_⟩
            · rcases List.mem_cons.mp hi' with h | h
              · subst h; simp [hch]
              · exact h1 i' h hd'
            · simp [h2, List.toFinset_cons, Finset.union_insert, Finset.insert_union]
          · rintro ⟨h1, h2⟩
            refine ⟨fun i' hi' hd' => h1 i' (by simp [hi']) hd', ?_⟩
            simp [h2, List.toFinset_cons, Finset.union_insert, Finset.insert_union]
    · have htg : roundTargets r p nl t (i :: rest) = roundTargets r p nl t rest := by
        simp [roundTargets, hdraw]
      have hstep : syncRoundExact r p nl t (i :: rest) acc =
          syncRoundExact r p nl t rest acc := by
        simp [syncRoundExact, hdraw]
      rw [hstep, ih, htg]
      constructor
      · rintro ⟨h1, h2⟩
        refine ⟨fun i' hi' hd' => ?_, h2⟩
        rcases List.mem_cons.mp hi' with h | h
        · subst h; exact absurd hd' hdraw
        · exact h1 i' h hd'
      · rintro ⟨h1, h2⟩
        exact ⟨fun i' hi' hd' => h1 i' (by simp [hi']) hd', h2⟩

/-! ### The fast synchronous round -/

/-- Node `i` is saturated: it is a valid index and its entire neighbor set is
already contained in `I`, so a push by `i` cannot infect anyone new. -/
def Saturated (nl : List (List ℕ)) (I : Finset ℕ) (i : ℕ) : Prop :=
  ∃ lst, nl[i]? = some lst ∧ lst.toFinset ⊆ I

theorem Saturated.mono {nl : List (List ℕ)} {I J : Finset ℕ} {i : ℕ}
    (h : Saturated nl I i) (hIJ : I ⊆ J) : Saturated nl J i := by
  obtain ⟨lst, h1, h2⟩ := h
  exact ⟨lst, h1, h2.trans hIJ⟩

/-- Everything one fast synchronous round guarantees about its outputs: the
infected set only grows, it grows by exactly the same push targets the exact
round would generate from the same node list (targets of skipped saturated
nodes are already infected), all new infections are recorded in the
newly-infected set, and every node marked useless is saturated. -/
theorem syncRoundFast_spec (r : SyncRand) (p : ℚ) (nl : List (List ℕ)) (t : ℕ) :
    ∀ (l : List ℕ) (J u w J' u' w' : Finset ℕ),
      syncRoundFast r p nl t l J u w = some (J', u', w') →
      J ⊆ J' ∧ u ⊆ u' ∧ w ⊆ w' ∧
      J' = J ∪ (roundTargets r p nl t l).toFinset ∧
      w' ⊆ w ∪ J' ∧
      J' \ J ⊆ w' ∧
      (∀ i ∈ u', i ∈ u ∨ Saturated nl J' i) := by
  intro l
  induction l with
  | nil =>
    intro J u w J' u' w' h
    rw [syncRoundFast] at h
    obtain ⟨h1, h2, h3⟩ : J = J' ∧ u = u' ∧ w = w' := by
      simpa [Prod.ext_iff] using h
    subst h1; subst h2; subst h3
    refine ⟨Finset.Subset.refl _, Finset.Subset.refl _, Finset.Subset.refl _,
      by simp [roundTargets], by simp, by simp, fun i hi => Or.inl hi⟩
  | cons i rest ih =>
    intro J u w J' u' w' h
    cases hnl : nl[i]? with
    | none => simp [syncRoundFast, hnl] at h
    | some lst =>
      by_cases hsub : lst.toFinset ⊆ J
      · simp only [syncRoundFast, hnl] at h
        rw [if_pos hsub] at h
        obtain ⟨hJ, hu, hw, heq, hwJ, hnew, hul⟩ := ih J (insert i u) w J' u' w' h
        have htg : J ∪ (roundTargets r p nl t (i :: rest)).toFinset =
            J ∪ (roundTargets r p nl t rest).toFinset := by
          cases hv : (if p ≤ r.draw t i then chosenOf r nl t i else none) with
          | none => rw [roundTargets, List.filterMap_cons, hv]; rfl
          | some j0 =>
            have hj0 : j0 ∈ J := by
              have hc : chosenOf r nl t i = some j0 := by
                by_cases hd : p ≤ r.draw t i
                · rw [if_pos hd] at hv; exact hv
                · rw [if_neg hd] at hv; cases hv
              rw [chosenOf, hnl] at hc
              simp only [Option.bind_eq_bind, Option.some_bind] at hc
              exact hsub (List.mem_toFinset.mpr (pickNeighbor_mem hc))
            rw [roundTargets, List.filterMap_cons, hv]
            rw [List.toFinset_cons, Finset.union_insert]
            rw [Finset.insert_eq_self.mpr]
            · rfl
            · exact Finset.mem_union_left _ hj0
        refine ⟨hJ, (Finset.subset_insert i u).trans hu, hw, ?_, hwJ, hnew, ?_⟩
        · rw [heq, ← htg]
        · intro i' hi'
          rcases hul i' hi' with hh | hh
          · rcases Finset.mem_insert.mp hh with rfl | hh
            · exact Or.inr ⟨lst, hnl, hsub.trans hJ⟩
            · exact Or.inl hh
          · exact Or.inr hh
      · simp only [syncRoundFast, hnl] at h
        rw [if_neg hsub] at h
        by_cases hdraw : p ≤ r.draw t i
        · rw [if_pos hdraw] at h
          cases hpick : pickNeighbor lst (r.choose t i) with
          | none => simp [hpick] at h
          | some j =>
            simp only [hpick] at h
            obtain ⟨hJ, hu, hw, heq, hwJ, hnew, hul⟩ :=
              ih (insert j J) u (insert j w) J' u' w' h
            have hch : chosenOf r nl t i = some j := by
              rw [chosenOf, hnl]; simpa using hpick
            have hjJ' : j ∈ J' := hJ (Finset.mem_insert_self j J)
            have htg : roundTargets r p nl t (i :: rest) =
                j :: roundTargets r p nl t rest := by
              rw [roundTargets, List.filterMap_cons]
              rw [if_pos hdraw, hch]; rfl
            refine ⟨(Finset.subset_insert j J).trans hJ, hu,
              (Finset.subset_insert j w).trans hw, ?_, ?_, ?_, hul⟩
            · rw [heq, htg, List.toFinset_cons, Finset.union_insert,
                Finset.insert_union]
            · intro x hx
              have := hwJ hx
              rcases Finset.mem_union.mp this with hx' | hx'
              · rcases Finset.mem_insert.mp hx' with rfl | hx''
                · exact Finset.mem_union_right _ hjJ'
                · exact Finset.mem_union_left _ hx''
              · exact Finset.mem_union_right _ hx'
            · intro x hx
              rcases Finset.mem_sdiff.mp hx with ⟨hx1, hx2⟩
              by_cases hxj : x = j
              · subst hxj
                exact hw (Finset.mem_insert_self x w)
              · exact hnew (Finset.mem_sdiff.mpr ⟨hx1, by
                  intro hc
                  rcases Finset.mem_insert.mp hc with h' | h'
                  · exact hxj h'
                  · exact hx2 h'⟩)
        · rw [if_neg hdraw] at h
          obtain ⟨hJ, hu, hw, heq, hwJ, hnew, hul⟩ := ih J u w J' u' w' h
          have htg : roundTargets r p nl t (i :: rest) =
              roundTargets r p nl t rest := by
            rw [roundTargets, List.filterMap_cons, if_neg hdraw]; rfl
          exact ⟨hJ, hu, hw, by rw [heq, htg], hwJ, hnew, hul⟩

/-- A fast synchronous round never fails when every node in the list is a
valid index; in particular an empty neighbor list is skipped as saturated,
never fed to the neighbor choice. -/
theorem syncRoundFast_total (r : SyncRand) (p : ℚ) (nl : List (List ℕ)) (t : ℕ) :
    ∀ (l : List ℕ) (J u w : Finset ℕ), (∀ i ∈ l, i < nl.length) →
      ∃ trip, syncRoundFast r p nl t l J u w = some trip := by
  intro l
  induction l with
  | nil => intro J u w _; exact ⟨(J, u, w), rfl⟩
  | cons i rest ih =>
    intro J u w hv
    have hi : i < nl.length := hv i (by simp)
    have hnl : nl[i]? = some nl[i] := List.getElem?_eq_getElem hi
    by_cases hsub : (nl[i]).toFinset ⊆ J
    · obtain ⟨trip, htrip⟩ := ih J (insert i u) w (fun x hx => hv x (by simp [hx]))
      exact ⟨trip, by simp only [syncRoundFast, hnl]; rw [if_pos hsub]; exact htrip⟩
    · by_cases hdraw : p ≤ r.draw t i
      · have hne : nl[i] ≠ [] := by
          intro hc
          exact hsub (by simp [hc])
        obtain ⟨j, hj⟩ := Option.isSome_iff_exists.mp
          (pickNeighbor_isSome (nl[i]) (r.choose t i) hne)
        obtain ⟨trip, htrip⟩ :=
          ih (insert j J) u (insert j w) (fun x hx => hv x (by simp [hx]))
        exact ⟨trip, by
          simp only [syncRoundFast, hnl]
          rw [if_neg hsub, if_pos hdraw]
          simp only [hj]
          exact htrip⟩
      · obtain ⟨trip, htrip⟩ := ih J u w (fun x hx => hv x (by simp [hx]))
        exact ⟨trip, by
          simp only [syncRoundFast, hnl]
          rw [if_neg hsub, if_neg hdraw]
          exact htrip⟩

/-! ### Round-indexed trajectories of the synchronous spreaders -/

/-- The infected set of the exact synchronous spreader at the start of round
`k` (so `trajSyncExact 0 = {source}`), or `none` once a round has crashed. -/
def trajSyncExact (r : SyncRand) (p : ℚ) (nl : List (List ℕ)) (source : ℕ) :
    ℕ → Option (Finset ℕ)
  | 0 => some {source}
  | k + 1 => (trajSyncExact r p nl source k).bind fun I =>
      (syncRoundExact r p nl k (sortNodes I) ∅).map fun newly => I ∪ newly

/-- The infected set and frontier of the fast synchronous spreader at the
start of round `k`. -/
def trajSyncFast (r : SyncRand) (p : ℚ) (nl : List (List ℕ)) (source : ℕ) :
    ℕ → Option (Finset ℕ × Finset ℕ)
  | 0 => some ({source}, {source})
  | k + 1 => (trajSyncFast r p nl source k).bind fun s =>
      (syncRoundFast r p nl k (sortNodes s.2) s.1 ∅ ∅).map fun z =>
        (z.1, (s.2 ∪ z.2.2) \ z.2.1)

/-! ### Equality of the exact and fast synchronous spreaders -/

theorem chosenOf_eq_some {r : SyncRand} {nl : List (List ℕ)} {t i j : ℕ}
    (h : chosenOf r nl t i = some j) :
    ∃ lst, nl[i]? = some lst ∧ j ∈ lst := by
  rw [chosenOf] at h
  cases hnl : nl[i]? with
  | none => rw [hnl] at h; cases h
  | some lst =>
    rw [hnl] at h
    exact ⟨lst, rfl, pickNeighbor_mem (by simpa using h)⟩

theorem mem_roundTargets_toFinset {r : SyncRand} {p : ℚ} {nl : List (List ℕ)}
    {t j : ℕ} {l : List ℕ} :
    j ∈ (roundTargets r p nl t l).toFinset ↔
      ∃ i ∈ l, p ≤ r.draw t i ∧ chosenOf r nl t i = some j := by
  rw [List.mem_toFinset, roundTargets, List.mem_filterMap]
  constructor
  · rintro ⟨i, hi, hf⟩
    by_cases hd : p ≤ r.draw t i
    · rw [if_pos hd] at hf; exact ⟨i, hi, hd, hf⟩
    · rw [if_neg hd] at hf; cases hf
  · rintro ⟨i, hi, hd, hc⟩
    exact ⟨i, hi, by rw [if_pos hd]; exact hc⟩

/-- The exact synchronous round never crashes when every iterated node is a
valid index with a nonempty neighbor list, and then it produces exactly the
round's push targets. -/
theorem syncRoundExact_total (r : SyncRand) (p : ℚ) (nl : List (List ℕ))
    (t : ℕ) (l : List ℕ) (hv : ∀ i ∈ l, i < nl.length)
    (hne : ∀ lst ∈ nl, lst ≠ []) :
    syncRoundExact r p nl t l ∅ = some (roundTargets r p nl t l).toFinset := by
  rw [syncRoundExact_eq_some_iff]
  refine ⟨fun i hi _ => ?_, by simp⟩
  have hlt := hv i hi
  have hnl : nl[i]? = some nl[i] := List.getElem?_eq_getElem hlt
  rw [chosenOf, hnl]
  simp only [Option.bind_eq_bind, Option.some_bind]
  exact pickNeighbor_isSome _ _ (hne _ (List.getElem_mem hlt))

/-- Invariant relating the fast spreader's frontier to the infected set at a
round boundary: the frontier is inside the infected set, all infected nodes
are valid indices, and every infected node outside the frontier is
saturated. -/
def SyncInv (nl : List (List ℕ)) (I F : Finset ℕ) : Prop :=
  F ⊆ I ∧ (∀ i ∈ I, i < nl.length) ∧ ∀ i ∈ I, i ∉ F → Saturated nl I i

/-- Lockstep equality of the exact and fast synchronous loops from any pair
of states satisfying the invariant, on topologies with no empty neighbor
list and no out-of-range neighbor entry. -/
theorem runSync_eq_aux (r : SyncRand) (p θ : ℚ) (nl : List (List ℕ))
    (hne : ∀ lst ∈ nl, lst ≠ [])
    (hcl : ∀ lst ∈ nl, ∀ j ∈ lst, j < nl.length) :
    ∀ (fuel t : ℕ) (I F : Finset ℕ), SyncInv nl I F →
      runSyncExact r p θ nl fuel t I = runSyncFast r p θ nl fuel t I F := by
  intro fuel
  induction fuel with
  | zero => intro t I F _; rfl
  | succ n ih =>
    intro t I F hinv
    obtain ⟨hFI, hval, hsat⟩ := hinv
    have hexact : syncRoundExact r p nl t (sortNodes I) ∅ =
        some (roundTargets r p nl t (sortNodes I)).toFinset :=
      syncRoundExact_total r p nl t _
        (fun i hi => hval i (mem_sortNodes.mp hi)) hne
    obtain ⟨⟨J', u', w'⟩, hfast⟩ := syncRoundFast_total r p nl t
      (sortNodes F) I ∅ ∅
      (fun i hi => hval i (hFI (mem_sortNodes.mp hi)))
    obtain ⟨hJ, _, hw, heq, hwJ, hnew, hul⟩ :=
      syncRoundFast_spec r p nl t _ I ∅ ∅ J' u' w' hfast
    have hsets : I ∪ (roundTargets r p nl t (sortNodes I)).toFinset = J' := by
      rw [heq]
      ext j
      simp only [Finset.mem_union, mem_roundTargets_toFinset]
      constructor
      · rintro (hj | ⟨i, hi, hd, hc⟩)
        · exact Or.inl hj
        · have hiI : i ∈ I := mem_sortNodes.mp hi
          by_cases hiF : i ∈ F
          · exact Or.inr ⟨i, mem_sortNodes.mpr hiF, hd, hc⟩
          · obtain ⟨lst, hl1, hl2⟩ := hsat i hiI hiF
            obtain ⟨lst', hl1', hjm⟩ := chosenOf_eq_some hc
            rw [hl1] at hl1'
            injection hl1' with hh
            subst hh
            exact Or.inl (hl2 (List.mem_toFinset.mpr hjm))
      · rintro (hj | ⟨i, hi, hd, hc⟩)
        · exact Or.inl hj
        · exact Or.inr ⟨i,
            mem_sortNodes.mpr (hFI (mem_sortNodes.mp hi)), hd, hc⟩
    have hinv' : SyncInv nl J' ((F ∪ w') \ u') := by
      refine ⟨?_, ?_, ?_⟩
      · intro x hx
        rcases Finset.mem_sdiff.mp hx with ⟨hx1, -⟩
        rcases Finset.mem_union.mp hx1 with hx2 | hx2
        · exact hJ (hFI hx2)
        · simpa using hwJ hx2
      · intro x hx
        rw [← hsets] at hx
        rcases Finset.mem_union.mp hx with hx | hx
        · exact hval x hx
        · obtain ⟨i, hi, hd, hc⟩ := mem_roundTargets_toFinset.mp hx
          obtain ⟨lst, hl1, hjm⟩ := chosenOf_eq_some hc
          exact hcl lst (List.getElem?_mem hl1) _ hjm
      · intro x hxJ hxF
        by_cases hxu : x ∈ u'
        · rcases hul x hxu with h0 | h0
          · exact absurd h0 (Finset.not_mem_empty x)
          · exact h0
        · have hxFw : x ∉ F ∪ w' := fun hc => hxF (Finset.mem_sdiff.mpr ⟨hc, hxu⟩)
          have hxI : x ∈ I := by
            by_contra hxI
            exact hxFw (Finset.mem_union_right _
              (hnew (Finset.mem_sdiff.mpr ⟨hxJ, hxI⟩)))
          have hxFonly : x ∉ F := fun hc => hxFw (Finset.mem_union_left _ hc)
          exact (hsat x hxI hxFonly).mono hJ
    have hL : runSyncExact r p θ nl (n + 1) t I =
        (if θ * nl.length ≤ ((J'.card : ℚ)) then some (t + 1)
         else runSyncExact r p θ nl n (t + 1) J') := by
      simp only [runSyncExact, hexact]
      rw [hsets]
    have hR : runSyncFast r p θ nl (n + 1) t I F =
        (if θ * nl.length ≤ ((J'.card : ℚ)) then some (t + 1)
         else runSyncFast r p θ nl n (t + 1) J' ((F ∪ w') \ u')) := by
      simp only [runSyncFast, hfast]
    rw [hL, hR]
    by_cases hcross : θ * nl.length ≤ ((J'.card : ℚ))
    · rw [if_pos hcross, if_pos hcross]
    · rw [if_neg hcross, if_neg hcross]
      exact ih (t + 1) J' _ hinv'

/-- The synchronous equivalence at the level of the two entry points. -/
theorem estimateSync_eq_fast (source n : ℕ) (nl : List (List ℕ)) (p θ : ℚ)
    (r : SyncRand) (fuel : ℕ) (hsrc : source < nl.length)
    (hne : ∀ lst ∈ nl, lst ≠ [])
    (hcl : ∀ lst ∈ nl, ∀ j ∈ lst, j < nl.length) :
    EstimateSynchronousGossipTime source n nl p θ r fuel =
      FastEstimateSynchronousGossipTime source n nl p θ r fuel := by
  apply runSync_eq_aux r p θ nl hne hcl fuel 0
  refine ⟨Finset.Subset.refl _, ?_, ?_⟩
  · intro i hi
    rw [Finset.mem_singleton] at hi
    subst hi
    exact hsrc
  · intro i hi hi'
    exact absurd hi hi'

/-! ### Concrete random sources for the concrete scenarios -/

/-- Constant draws of one half, always choosing index 0. -/
def crHalf : SyncRand := ⟨fun _ _ => 1 / 2, fun _ _ => 0⟩

/-- Draws of one half; node 1 alternates its neighbor choice by round. -/
def crLine : SyncRand := ⟨fun _ _ => 1 / 2, fun t i => if i = 1 then t % 2 else 0⟩

/-- Constant asynchronous source: draws one half, chooses index 0, all
delays 1. -/
def caHalf : AsyncRand := ⟨fun _ _ => 1 / 2, fun _ _ => 0, fun _ _ => 1⟩

/-- Asynchronous source whose neighbor choice cycles with the activation
count; draws one half, delays 1. -/
def caSeq : AsyncRand := ⟨fun _ _ => 1 / 2, fun _ k => k, fun _ _ => 1⟩

/-! ### Characterization of the exact synchronous spreader's return value -/

theorem trajSyncExact_descend (r : SyncRand) (p : ℚ) (nl : List (List ℕ))
    (source : ℕ) : ∀ (b : ℕ) (J : Finset ℕ),
    trajSyncExact r p nl source b = some J →
      ∀ a ≤ b, ∃ I, trajSyncExact r p nl source a = some I := by
  intro b
  induction b with
  | zero =>
    intro J hJ a ha
    rw [Nat.le_zero.mp ha]
    exact ⟨J, hJ⟩
  | succ m ih =>
    intro J hJ a ha
    rw [trajSyncExact] at hJ
    cases hm : trajSyncExact r p nl source m with
    | none => rw [hm] at hJ; cases hJ
    | some I' =>
      rcases Nat.eq_or_lt_of_le ha with he | hl
      · exact ⟨J, by rw [he]; rw [trajSyncExact, hm]; rw [hm] at hJ; exact hJ⟩
      · exact ih I' hm a (Nat.lt_succ_iff.mp hl)

/-- The exact synchronous spreader run from the start of round `t` returns
`T` exactly when round `T` is the first round at which the merged infected
set meets the threshold (within the available fuel and with no crash before
round `T`). -/
theorem runSyncExact_char (r : SyncRand) (p θ : ℚ) (nl : List (List ℕ))
    (source : ℕ) : ∀ (fuel t : ℕ) (I : Finset ℕ),
    trajSyncExact r p nl source t = some I →
      ∀ T, (runSyncExact r p θ nl fuel t I = some T ↔
        (t < T ∧ T ≤ t + fuel ∧
          (∃ J, trajSyncExact r p nl source T = some J ∧
            θ * nl.length ≤ ((J.card : ℚ))) ∧
          ∀ k, t < k → k < T →
            ∃ J, trajSyncExact r p nl source k = some J ∧
              ¬ θ * nl.length ≤ ((J.card : ℚ)))) := by
  intro fuel
  induction fuel with
  | zero =>
    intro t I hI T
    constructor
    · intro h; cases h
    · rintro ⟨h1, h2, -, -⟩; omega
  | succ n ih =>
    intro t I hI T
    cases hround : syncRoundExact r p nl t (sortNodes I) ∅ with
    | none =>
      have hnone : trajSyncExact r p nl source (t + 1) = none := by
        rw [trajSyncExact, hI]
        simp [hround]
      have hL : runSyncExact r p θ nl (n + 1) t I = none := by
        simp only [runSyncExact, hround]
      rw [hL]
      constructor
      · intro h; cases h
      · rintro ⟨h1, h2, ⟨J, hJ, hcr⟩, hbelow⟩
        obtain ⟨I', hI'⟩ :=
          trajSyncExact_descend r p nl source T J hJ (t + 1) (by omega)
        rw [hnone] at hI'
        cases hI'
    | some newly =>
      have htraj' : trajSyncExact r p nl source (t + 1) = some (I ∪ newly) := by
        rw [trajSyncExact, hI]
        simp [hround]
      by_cases hcross : θ * nl.length ≤ (((I ∪ newly).card : ℚ))
      · have hL : runSyncExact r p θ nl (n + 1) t I = some (t + 1) := by
          simp only [runSyncExact, hround]
          rw [if_pos hcross]
        rw [hL]
        constructor
        · intro h
          injection h with h
          subst h
          exact ⟨by omega, by omega, ⟨I ∪ newly, htraj', hcross⟩,
            fun k hk1 hk2 => by omega⟩
        · rintro ⟨h1, h2, ⟨J, hJ, hcr⟩, hbelow⟩
          rcases Nat.lt_or_ge (t + 1) T with hT | hT
          · obtain ⟨J', hJ', hncr⟩ := hbelow (t + 1) (by omega) hT
            rw [htraj'] at hJ'
            injection hJ' with hh
            subst hh
            exact absurd hcross hncr
          · have hTe : T = t + 1 := by omega
            rw [hTe]
      · have hL : runSyncExact r p θ nl (n + 1) t I =
            runSyncExact r p θ nl n (t + 1) (I ∪ newly) := by
          simp only [runSyncExact, hround]
          rw [if_neg hcross]
        rw [hL, ih (t + 1) (I ∪ newly) htraj' T]
        constructor
        · rintro ⟨h1, h2, h3, h4⟩
          refine ⟨by omega, by omega, h3, ?_⟩
          intro k hk1 hk2
          by_cases hk : k = t + 1
          · rw [hk]
            exact ⟨I ∪ newly, htraj', hcross⟩
          · exact h4 k (by omega) hk2
        · rintro ⟨h1, h2, h3, h4⟩
          have hT : t + 1 < T := by
            rcases Nat.eq_or_lt_of_le (Nat.succ_le_of_lt h1) with he | hl
            · exfalso
              obtain ⟨J, hJ, hcr⟩ := h3
              rw [← he, htraj'] at hJ
              injection hJ with hh
              subst hh
              exact hcross hcr
            · exact hl
          exact ⟨hT, by omega, h3, fun k hk1 hk2 => h4 k (by omega) hk2⟩

/-! ### Facts about the event heap -/

theorem lexLe_refl (a : ℚ × ℕ) : lexLe a a := Or.inr ⟨rfl, le_refl _⟩

theorem lexLe_trans {a b c : ℚ × ℕ} (h1 : lexLe a b) (h2 : lexLe b c) :
    lexLe a c := by
  rcases h1 with h1 | ⟨h1, h1'⟩ <;> rcases h2 with h2 | ⟨h2, h2'⟩
  · exact Or.inl (h1.trans h2)
  · exact Or.inl (h2 ▸ h1)
  · exact Or.inl (h1 ▸ h2)
  · exact Or.inr ⟨h1.trans h2, h1'.trans h2'⟩

theorem lexLe_total (a b : ℚ × ℕ) : lexLe a b ∨ lexLe b a := by
  rcases lt_trichotomy a.1 b.1 with h | h | h
  · exact Or.inl (Or.inl h)
  · rcases le_total a.2 b.2 with h' | h'
    · exact Or.inl (Or.inr ⟨h, h'⟩)
    · exact Or.inr (Or.inr ⟨h.symm, h'⟩)
  · exact Or.inr (Or.inl h)

theorem lexLe_antisymm {a b : ℚ × ℕ} (h1 : lexLe a b) (h2 : lexLe b a) :
    a = b := by
  rcases h1 with h1 | ⟨h1, h1'⟩ <;> rcases h2 with h2 | ⟨h2, h2'⟩
  · exact absurd h2 (not_lt_of_lt h1)
  · exact absurd h1 (h2 ▸ lt_irrefl _)
  · exact absurd h2 (h1 ▸ lt_irrefl _)
  · exact Prod.ext h1 (le_antisymm h1' h2')

theorem popMin_eq_none {h : List (ℚ × ℕ)} : popMin h = none ↔ h = [] := by
  cases h with
  | nil => simp [popMin]
  | cons e rest =>
    simp only [popMin]
    cases hrec : popMin rest with
    | none => simp
    | some pr =>
      obtain ⟨m, rest'⟩ := pr
      by_cases hle : lexLe e m <;> simp [hle]

theorem popMin_perm : ∀ {h : List (ℚ × ℕ)} {m : ℚ × ℕ} {rest : List (ℚ × ℕ)},
    popMin h = some (m, rest) →
      (h : Multiset (ℚ × ℕ)) = m ::ₘ (rest : Multiset (ℚ × ℕ)) := by
  intro h
  induction h with
  | nil => intro m rest hp; cases hp
  | cons e tl ih =>
    intro m rest hp
    rw [popMin] at hp
    cases hrec : popMin tl with
    | none =>
      rw [hrec] at hp
      have htl : tl = [] := popMin_eq_none.mp hrec
      subst htl
      obtain ⟨h1, h2⟩ : e = m ∧ ([] : List (ℚ × ℕ)) = rest := by
        simpa [Prod.ext_iff] using hp
      subst h1
      subst h2
      rfl
    | some pr =>
      obtain ⟨m', rest'⟩ := pr
      rw [hrec] at hp
      by_cases hle : lexLe e m'
      · obtain ⟨h1, h2⟩ : e = m ∧ tl = rest := by
          simpa [hle, Prod.ext_iff] using hp
        subst h1
        subst h2
        rfl
      · obtain ⟨h1, h2⟩ : m' = m ∧ e :: rest' = rest := by
          simpa [hle, Prod.ext_iff] using hp
        subst h1
        subst h2
        have hih := ih hrec
        rw [← Multiset.cons_coe, ← Multiset.cons_coe, hih]
        exact Multiset.cons_swap e m' _

theorem popMin_min : ∀ {h : List (ℚ × ℕ)} {m : ℚ × ℕ} {rest : List (ℚ × ℕ)},
    popMin h = some (m, rest) → ∀ e ∈ h, lexLe m e := by
  intro h
  induction h with
  | nil => intro m rest hp; cases hp
  | cons e tl ih =>
    intro m rest hp x hx
    rw [popMin] at hp
    cases hrec : popMin tl with
    | none =>
      rw [hrec] at hp
      have htl : tl = [] := popMin_eq_none.mp hrec
      subst htl
      obtain ⟨h1, -⟩ : e = m ∧ ([] : List (ℚ × ℕ)) = rest := by
        simpa [Prod.ext_iff] using hp
      subst h1
      rcases List.mem_cons.mp hx with rfl | hx'
      · exact lexLe_refl _
      · cases hx'
    | some pr =>
      obtain ⟨m', rest'⟩ := pr
      rw [hrec] at hp
      by_cases hle : lexLe e m'
      · obtain ⟨h1, -⟩ : e = m ∧ tl = rest := by
          simpa [hle, Prod.ext_iff] using hp
        subst h1
        rcases List.mem_cons.mp hx with rfl | hx'
        · exact lexLe_refl _
        · exact lexLe_trans hle (ih hrec x hx')
      · obtain ⟨h1, -⟩ : m' = m ∧ e :: rest' = rest := by
          simpa [hle, Prod.ext_iff] using hp
        subst h1
        rcases List.mem_cons.mp hx with h' | hx'
        · rw [h']
          rcases lexLe_total m' e with hxx | hxx
          · exact hxx
          · exact absurd hxx hle
        · exact ih hrec x hx'

/-- If `m` belongs to `h` and is a lexicographic lower bound of `h`, then
popping `h` yields exactly `m`, with the rest a multiset complement. -/
theorem popMin_eq_of_min {h : List (ℚ × ℕ)} {m : ℚ × ℕ}
    (hm : m ∈ h) (hmin : ∀ e ∈ h, lexLe m e) :
    ∃ rest, popMin h = some (m, rest) ∧
      (h : Multiset (ℚ × ℕ)) = m ::ₘ (rest : Multiset (ℚ × ℕ)) := by
  cases hp : popMin h with
  | none =>
    rw [popMin_eq_none.mp hp] at hm
    cases hm
  | some pr =>
    obtain ⟨m', rest⟩ := pr
    have hperm := popMin_perm hp
    have hm'mem : m' ∈ h := by
      have : m' ∈ (h : Multiset (ℚ × ℕ)) := by
        rw [hperm]; exact Multiset.mem_cons_self _ _
      simpa using this
    have : m = m' := lexLe_antisymm (hmin m' hm'mem) (popMin_min hp m hm)
    subst this
    exact ⟨rest, rfl, hperm⟩

/-! ### Step equations for the asynchronous loops -/

theorem asyncStepExact_eq (r : AsyncRand) (p θv : ℚ) (nl : List (List ℕ))
    (s : AsyncState) (t : ℚ) (i : ℕ) (rest : List (ℚ × ℕ))
    (hpop : popMin s.heap = some ((t, i), rest)) :
    asyncStepExact r p θv nl s =
      (if p ≤ r.draw i (s.act i) then
        match nl[i]? with
        | none => none
        | some lst =>
          match pickNeighbor lst (r.choose i (s.act i)) with
          | none => none
          | some j =>
            if θv ≤ (((insert j s.infected).card : ℚ)) then some (Sum.inl t)
            else some (Sum.inr ⟨(t + r.delay i (s.act i + 1), i) ::
              (if j ∈ s.infected then [] else [(t + r.delay j 0, j)]) ++ rest,
              insert j s.infected, Function.update s.act i (s.act i + 1)⟩)
      else
        if θv ≤ ((s.infected.card : ℚ)) then some (Sum.inl t)
        else some (Sum.inr ⟨(t + r.delay i (s.act i + 1), i) :: rest,
          s.infected, Function.update s.act i (s.act i + 1)⟩)) := by
  unfold asyncStepExact
  rw [hpop]
  by_cases hd : p ≤ r.draw i (s.act i)
  · cases hnl : nl[i]? with
    | none => simp [hd, hnl]
    | some lst =>
      cases hpick : pickNeighbor lst (r.choose i (s.act i)) with
      | none => simp [hd, hnl, hpick]
      | some j => simp [hd, hnl, hpick]
  · simp [hd]

theorem asyncStepFast_eq (r : AsyncRand) (p θv : ℚ) (nl : List (List ℕ))
    (s : AsyncState) (t : ℚ) (i : ℕ) (rest : List (ℚ × ℕ))
    (hpop : popMin s.heap = some ((t, i), rest)) :
    asyncStepFast r p θv nl s =
      (match nl[i]? with
      | none => none
      | some lst =>
        if lst.toFinset ⊆ s.infected then some (Sum.inr ⟨rest, s.infected, s.act⟩)
        else if p ≤ r.draw i (s.act i) then
          match pickNeighbor lst (r.choose i (s.act i)) with
          | none => none
          | some j =>
            if θv ≤ (((insert j s.infected).card : ℚ)) then some (Sum.inl t)
            else some (Sum.inr ⟨(t + r.delay i (s.act i + 1), i) ::
              (if j ∈ s.infected then [] else [(t + r.delay j 0, j)]) ++ rest,
              insert j s.infected, Function.update s.act i (s.act i + 1)⟩)
        else
          if θv ≤ ((s.infected.card : ℚ)) then some (Sum.inl t)
          else some (Sum.inr ⟨(t + r.delay i (s.act i + 1), i) :: rest,
            s.infected, Function.update s.act i (s.act i + 1)⟩)) := by
  unfold asyncStepFast
  rw [hpop]
  cases hnl : nl[i]? with
  | none => simp [hnl]
  | some lst =>
    by_cases hsub : lst.toFinset ⊆ s.infected
    · simp [hnl, hsub]
    · by_cases hd : p ≤ r.draw i (s.act i)
      · cases hpick : pickNeighbor lst (r.choose i (s.act i)) with
        | none => simp [hnl, hsub, hd, hpick]
        | some j => simp [hnl, hsub, hd, hpick]
      · simp [hnl, hsub, hd]

/-! ### Simulation of the exact asynchronous spreader by the fast one -/

theorem runAsync_succ_none {step : AsyncState → Option (ℚ ⊕ AsyncState)}
    {n : ℕ} {s : AsyncState} (h : step s = none) :
    runAsync step (n + 1) s = none := by
  simp [runAsync, h]

theorem runAsync_succ_inl {step : AsyncState → Option (ℚ ⊕ AsyncState)}
    {n : ℕ} {s : AsyncState} {t : ℚ} (h : step s = some (Sum.inl t)) :
    runAsync step (n + 1) s = some t := by
  simp [runAsync, h]

theorem runAsync_succ_inr {step : AsyncState → Option (ℚ ⊕ AsyncState)}
    {n : ℕ} {s s' : AsyncState} (h : step s = some (Sum.inr s')) :
    runAsync step (n + 1) s = runAsync step n s' := by
  simp [runAsync, h]

theorem asyncStepExact_none_of_empty {r : AsyncRand} {p θv : ℚ}
    {nl : List (List ℕ)} {s : AsyncState} (hpop : popMin s.heap = none) :
    asyncStepExact r p θv nl s = none := by
  unfold asyncStepExact
  rw [hpop]

/-- When the popped node is saturated and the threshold has not been met,
the exact asynchronous step (unless it crashes) is a pure no-op: the
infected set is unchanged and the node is merely rescheduled. -/
theorem asyncStepExact_saturated_continue (r : AsyncRand) (p θv : ℚ)
    (nl : List (List ℕ)) (se : AsyncState) (t : ℚ) (i : ℕ)
    (re : List (ℚ × ℕ)) (lst : List ℕ)
    (hpop : popMin se.heap = some ((t, i), re))
    (hnl : nl[i]? = some lst)
    (hsat : lst.toFinset ⊆ se.infected)
    (hcard : (se.infected.card : ℚ) < θv)
    (hne : asyncStepExact r p θv nl se ≠ none) :
    asyncStepExact r p θv nl se =
      some (Sum.inr ⟨(t + r.delay i (se.act i + 1), i) :: re, se.infected,
        Function.update se.act i (se.act i + 1)⟩) := by
  rw [asyncStepExact_eq r p θv nl se t i re hpop] at hne ⊢
  by_cases hd : p ≤ r.draw i (se.act i)
  · rw [if_pos hd] at hne ⊢
    cases hpick : pickNeighbor lst (r.choose i (se.act i)) with
    | none =>
      exfalso
      apply hne
      simp [hnl, hpick]
    | some j =>
      have hj : j ∈ se.infected :=
        hsat (List.mem_toFinset.mpr (pickNeighbor_mem hpick))
      have habs : insert j se.infected = se.infected :=
        Finset.insert_eq_self.mpr hj
      simp only [hnl, hpick, habs]
      rw [if_neg (not_le.mpr hcard)]
      simp [hj]
  · rw [if_neg hd] at hne ⊢
    rw [if_neg (not_le.mpr hcard)]

/-- Simulation relation between a state of the exact asynchronous spreader
and a state of the fast one: equal infected sets below the threshold with
valid node indices; each fast event also pending (with the same time) in the
exact heap, at most one fast event per node; the exact heap's surplus events
belong to a set `D` of dropped nodes, all saturated, with the activation
counters agreeing outside `D`. -/
def AsyncRel (nl : List (List ℕ)) (θv : ℚ) (se sf : AsyncState) : Prop :=
  se.infected = sf.infected ∧
  ((sf.infected.card : ℚ) < θv) ∧
  (∀ i ∈ sf.infected, i < nl.length) ∧
  (∀ e ∈ se.heap, e.2 ∈ se.infected) ∧
  (sf.heap.map Prod.snd).Nodup ∧
  ∃ D : Finset ℕ,
    D ⊆ sf.infected ∧
    (∀ d ∈ D, Saturated nl sf.infected d) ∧
    (∀ e ∈ sf.heap, e.2 ∉ D) ∧
    (∀ i, i ∉ D → se.act i = sf.act i) ∧
    ∃ ex : Multiset (ℚ × ℕ),
      (se.heap : Multiset (ℚ × ℕ)) = (sf.heap : Multiset (ℚ × ℕ)) + ex ∧
      (∀ e ∈ ex, e.2 ∈ D)

/-- Any value returned by the exact asynchronous loop from a state related
to a fast-loop state is also returned by the fast loop (with enough fuel):
the fast loop only discards events of saturated nodes, whose processing by
the exact loop can neither change the infected set nor cross the
threshold. -/
theorem asyncSim_aux (r : AsyncRand) (p θv : ℚ) (nl : List (List ℕ))
    (hcl : ∀ lst ∈ nl, ∀ j ∈ lst, j < nl.length) :
    ∀ (fuel : ℕ) (se sf : AsyncState) (v : ℚ), AsyncRel nl θv se sf →
      runAsync (asyncStepExact r p θv nl) fuel se = some v →
      ∃ m, runAsync (asyncStepFast r p θv nl) m sf = some v := by
  intro fuel
  induction fuel with
  | zero => intro se sf v _ h; cases h
  | succ n ih =>
    intro se sf v hrel hrun
    obtain ⟨hinf, hcard, hval, hhn, hnd, D, hDsub, hDsat, hfD, hact, ex,
      hsplit, hexD⟩ := hrel
    cases hpop : popMin se.heap with
    | none =>
      rw [runAsync_succ_none (asyncStepExact_none_of_empty hpop)] at hrun
      cases hrun
    | some pr =>
      obtain ⟨⟨t, i⟩, re⟩ := pr
      have hperm := popMin_perm hpop
      have hmem : (t, i) ∈ se.heap := by
        have h0 : (t, i) ∈ (se.heap : Multiset (ℚ × ℕ)) := by
          rw [hperm]; exact Multiset.mem_cons_self _ _
        simpa using h0
      have hiInf : i ∈ se.infected := hhn (t, i) hmem
      have hiInfF : i ∈ sf.infected := hinf ▸ hiInf
      have hiLt : i < nl.length := hval i hiInfF
      have hnlI : nl[i]? = some nl[i] := List.getElem?_eq_getElem hiLt
      have hcardE : ((se.infected.card : ℚ)) < θv := by rw [hinf]; exact hcard
      have hstepne : asyncStepExact r p θv nl se ≠ none := by
        intro hc
        rw [runAsync_succ_none hc] at hrun
        cases hrun
      have hreInf : ∀ e ∈ re, e.2 ∈ se.infected := by
        intro e he
        apply hhn
        have h0 : e ∈ (se.heap : Multiset (ℚ × ℕ)) := by
          rw [hperm]; exact Multiset.mem_cons_of_mem (by simpa using he)
        simpa using h0
      by_cases hiD : i ∈ D
      · -- Case A: the exact loop processes an event of an already dropped
        -- (hence saturated) node; this is a no-op and the fast state is
        -- unchanged.
        obtain ⟨lst, hlst, hsat⟩ := hDsat i hiD
        have hsatE : lst.toFinset ⊆ se.infected := by rw [hinf]; exact hsat
        have hstep := asyncStepExact_saturated_continue r p θv nl se t i re
          lst hpop hlst hsatE hcardE hstepne
        rw [runAsync_succ_inr hstep] at hrun
        have htiEx : (t, i) ∈ ex := by
          have h1 : (t, i) ∈ (sf.heap : Multiset (ℚ × ℕ)) + ex := by
            rw [← hsplit, hperm]; exact Multiset.mem_cons_self _ _
          rcases Multiset.mem_add.mp h1 with h2 | h2
          · exact absurd hiD (hfD (t, i) (by simpa using h2))
          · exact h2
        obtain ⟨ex0, hex0⟩ := Multiset.exists_cons_of_mem htiEx
        have hre : (re : Multiset (ℚ × ℕ)) =
            (sf.heap : Multiset (ℚ × ℕ)) + ex0 := by
          apply (Multiset.cons_inj_right ((t, i))).mp
          rw [← hperm, hsplit, hex0, Multiset.add_cons]
        apply ih _ sf v ?_ hrun
        refine ⟨hinf, hcard, hval, ?_, hnd, D, hDsub, hDsat, hfD, ?_,
          (t + r.delay i (se.act i + 1), i) ::ₘ ex0, ?_, ?_⟩
        · intro e he
          rcases List.mem_cons.mp he with rfl | he'
          · exact hiInf
          · exact hreInf e he'
        · intro i' hi'
          have hne' : i' ≠ i := fun hc => hi' (hc ▸ hiD)
          show Function.update se.act i (se.act i + 1) i' = sf.act i'
          rw [Function.update_noteq hne']
          exact hact i' hi'
        · show (((t + r.delay i (se.act i + 1), i) :: re : List (ℚ × ℕ)) :
              Multiset (ℚ × ℕ)) = _
          rw [← Multiset.cons_coe, hre, Multiset.add_cons]
        · intro e he
          rcases Multiset.mem_cons.mp he with rfl | he'
          · exact hiD
          · exact hexD e (by rw [hex0]; exact Multiset.mem_cons_of_mem he')
      · -- Case B: the popped event is also the fast heap's minimum.
        have htiSf : (t, i) ∈ sf.heap := by
          have h1 : (t, i) ∈ (sf.heap : Multiset (ℚ × ℕ)) + ex := by
            rw [← hsplit, hperm]; exact Multiset.mem_cons_self _ _
          rcases Multiset.mem_add.mp h1 with h2 | h2
          · simpa using h2
          · exact absurd (hexD _ h2) hiD
        have hminSf : ∀ e ∈ sf.heap, lexLe (t, i) e := by
          intro e he
          apply popMin_min hpop
          have h0 : e ∈ (se.heap : Multiset (ℚ × ℕ)) := by
            rw [hsplit]
            exact Multiset.mem_add.mpr (Or.inl (by simpa using he))
          simpa using h0
        obtain ⟨sfrest, hpopF, hpermF⟩ := popMin_eq_of_min htiSf hminSf
        have hre2 : (re : Multiset (ℚ × ℕ)) =
            (sfrest : Multiset (ℚ × ℕ)) + ex := by
          apply (Multiset.cons_inj_right ((t, i))).mp
          rw [← hperm, hsplit, hpermF, Multiset.cons_add]
        have hpermList : sf.heap.Perm ((t, i) :: sfrest) :=
          Multiset.coe_eq_coe.mp (by rw [hpermF]; rfl)
        have hndCons : ((i :: sfrest.map Prod.snd)).Nodup := by
          have h0 := (hpermList.map Prod.snd).nodup_iff.mp hnd
          simpa using h0
        have hiNotRest : i ∉ sfrest.map Prod.snd :=
          (List.nodup_cons.mp hndCons).1
        have hndRest : (sfrest.map Prod.snd).Nodup :=
          (List.nodup_cons.mp hndCons).2
        have hsfrestMem : ∀ e ∈ sfrest, e ∈ sf.heap := by
          intro e he
          exact hpermList.symm.subset (by simp [he])
        have hsfInf : ∀ e ∈ sf.heap, e.2 ∈ sf.infected := by
          intro e he
          rw [← hinf]
          apply hhn
          have h0 : e ∈ (se.heap : Multiset (ℚ × ℕ)) := by
            rw [hsplit]
            exact Multiset.mem_add.mpr (Or.inl (by simpa using he))
          simpa using h0
        have hkeq : se.act i = sf.act i := hact i hiD
        by_cases hsub : (nl[i]).toFinset ⊆ sf.infected
        · -- Case B2: the node is saturated; the fast loop drops the event,
          -- the exact loop performs a no-op.
          have hstepF : asyncStepFast r p θv nl sf =
              some (Sum.inr ⟨sfrest, sf.infected, sf.act⟩) := by
            rw [asyncStepFast_eq r p θv nl sf t i sfrest hpopF]
            simp [hnlI, hsub]
          have hsatE : (nl[i]).toFinset ⊆ se.infected := by
            rw [hinf]; exact hsub
          have hstep := asyncStepExact_saturated_continue r p θv nl se t i re
            (nl[i]) hpop hnlI hsatE hcardE hstepne
          rw [runAsync_succ_inr hstep] at hrun
          have hrel' : AsyncRel nl θv
              ⟨(t + r.delay i (se.act i + 1), i) :: re, se.infected,
                Function.update se.act i (se.act i + 1)⟩
              ⟨sfrest, sf.infected, sf.act⟩ := by
            refine ⟨hinf, hcard, hval, ?_, hndRest, insert i D, ?_, ?_, ?_, ?_,
              (t + r.delay i (se.act i + 1), i) ::ₘ ex, ?_, ?_⟩
            · intro e he
              rcases List.mem_cons.mp he with rfl | he'
              · exact hiInf
              · exact hreInf e he'
            · intro d hd
              rcases Finset.mem_insert.mp hd with rfl | hd'
              · exact hiInfF
              · exact hDsub hd'
            · intro d hd
              rcases Finset.mem_insert.mp hd with rfl | hd'
              · exact ⟨nl[d], hnlI, hsub⟩
              · exact hDsat d hd'
            · intro e he
              intro hc
              rcases Finset.mem_insert.mp hc with hc' | hc'
              · exact hiNotRest (hc' ▸ List.mem_map_of_mem Prod.snd he)
              · exact hfD e (hsfrestMem e he) hc'
            · intro i' hi'
              have hi'D : i' ∉ D := fun hc => hi' (Finset.mem_insert_of_mem hc)
              have hne' : i' ≠ i := fun hc => hi' (hc ▸ Finset.mem_insert_self i D)
              show Function.update se.act i (se.act i + 1) i' = sf.act i'
              rw [Function.update_noteq hne']
              exact hact i' hi'D
            · show (((t + r.delay i (se.act i + 1), i) :: re : List (ℚ × ℕ)) :
                  Multiset (ℚ × ℕ)) = _
              rw [← Multiset.cons_coe, hre2, Multiset.add_cons]
            · intro e he
              rcases Multiset.mem_cons.mp he with rfl | he'
              · exact Finset.mem_insert_self i D
              · exact Finset.mem_insert_of_mem (hexD e he')
          obtain ⟨m, hm⟩ := ih _ _ v hrel' hrun
          exact ⟨m + 1, by rw [runAsync_succ_inr hstepF]; exact hm⟩
        · -- Case B1: the node still has an uninfected neighbor; both loops
          -- perform the same push attempt.
          by_cases hd : p ≤ r.draw i (se.act i)
          · cases hpick : pickNeighbor (nl[i]) (r.choose i (se.act i)) with
            | none =>
              exfalso
              apply hstepne
              rw [asyncStepExact_eq r p θv nl se t i re hpop]
              simp [hd, hnlI, hpick]
            | some j =>
              have hdF : p ≤ r.draw i (sf.act i) := by rw [← hkeq]; exact hd
              have hpickF : pickNeighbor (nl[i]) (r.choose i (sf.act i)) =
                  some j := by rw [← hkeq]; exact hpick
              have hjLt : j < nl.length :=
                hcl (nl[i]) (List.getElem_mem hiLt) j (pickNeighbor_mem hpick)
              have hinsEq : insert j se.infected = insert j sf.infected := by
                rw [hinf]
              by_cases hcross : θv ≤ (((insert j sf.infected).card : ℚ))
              · -- the push crosses the threshold: both return `t`
                have hstepE : asyncStepExact r p θv nl se =
                    some (Sum.inl t) := by
                  rw [asyncStepExact_eq r p θv nl se t i re hpop]
                  simp only [hd, if_true, hnlI, hpick, hinsEq]
                  rw [if_pos hcross]
                have hstepF : asyncStepFast r p θv nl sf =
                    some (Sum.inl t) := by
                  rw [asyncStepFast_eq r p θv nl sf t i sfrest hpopF]
                  simp only [hnlI]
                  rw [if_neg hsub, if_pos hdF]
                  simp only [hpickF]
                  rw [if_pos hcross]
                rw [runAsync_succ_inl hstepE] at hrun
                exact ⟨1, by rw [runAsync_succ_inl hstepF]; exact hrun⟩
              · -- the push does not cross: both continue in lockstep
                have hstepE : asyncStepExact r p θv nl se =
                    some (Sum.inr ⟨(t + r.delay i (se.act i + 1), i) ::
                      (if j ∈ sf.infected then []
                        else [(t + r.delay j 0, j)]) ++ re,
                      insert j sf.infected,
                      Function.update se.act i (se.act i + 1)⟩) := by
                  rw [asyncStepExact_eq r p θv nl se t i re hpop]
                  simp only [hd, if_true, hnlI, hpick, hinsEq, hinf]
                  rw [if_neg hcross]
                have hstepF : asyncStepFast r p θv nl sf =
                    some (Sum.inr ⟨(t + r.delay i (se.act i + 1), i) ::
                      (if j ∈ sf.infected then []
                        else [(t + r.delay j 0, j)]) ++ sfrest,
                      insert j sf.infected,
                      Function.update sf.act i (se.act i + 1)⟩) := by
                  rw [asyncStepFast_eq r p θv nl sf t i sfrest hpopF]
                  simp only [hnlI, hkeq]
                  rw [if_neg hsub, if_pos hdF]
                  simp only [hpickF]
                  rw [if_neg hcross]
                rw [runAsync_succ_inr hstepE] at hrun
                have hrel' : AsyncRel nl θv
                    ⟨(t + r.delay i (se.act i + 1), i) ::
                      (if j ∈ sf.infected then []
                        else [(t + r.delay j 0, j)]) ++ re,
                      insert j sf.infected,
                      Function.update se.act i (se.act i + 1)⟩
                    ⟨(t + r.delay i (se.act i + 1), i) ::
                      (if j ∈ sf.infected then []
                        else [(t + r.delay j 0, j)]) ++ sfrest,
                      insert j sf.infected,
                      Function.update sf.act i (se.act i + 1)⟩ := by
                  refine ⟨rfl, lt_of_not_le hcross, ?_, ?_, ?_, D, ?_, ?_, ?_,
                    ?_, ex, ?_, hexD⟩
                  · intro x hx
                    rcases Finset.mem_insert.mp hx with rfl | hx'
                    · exact hjLt
                    · exact hval x hx'
                  · intro e he
                    rcases List.mem_cons.mp he with rfl | he'
                    · exact Finset.mem_insert_of_mem hiInfF
                    · rcases List.mem_append.mp he' with he'' | he''
                      · by_cases hjI : j ∈ sf.infected
                        · rw [if_pos hjI] at he''
                          cases he''
                        · rw [if_neg hjI] at he''
                          rcases List.mem_cons.mp he'' with rfl | hc
                          · exact Finset.mem_insert_self j _
                          · cases hc
                      · exact Finset.mem_insert_of_mem
                          (hinf ▸ hreInf e he'')
                  · by_cases hjI : j ∈ sf.infected
                    · rw [if_pos hjI]
                      simpa using hndCons
                    · rw [if_neg hjI]
                      have hji : j ≠ i := fun hc => hjI (hc ▸ hiInfF)
                      have hjRest : j ∉ sfrest.map Prod.snd := by
                        intro hc
                        obtain ⟨e, he, he2⟩ := List.mem_map.mp hc
                        exact hjI (he2 ▸ hsfInf e (hsfrestMem e he))
                      simp only [List.cons_append, List.nil_append,
                        List.map_cons]
                      refine List.nodup_cons.mpr ⟨?_, ?_⟩
                      · intro hc
                        rcases List.mem_cons.mp hc with hc' | hc'
                        · exact hji hc'.symm
                        · exact hiNotRest hc'
                      · exact List.nodup_cons.mpr ⟨hjRest, hndRest⟩
                  · exact hDsub.trans (Finset.subset_insert j _)
                  · intro d hd'
                    exact (hDsat d hd').mono (Finset.subset_insert j _)
                  · intro e he
                    rcases List.mem_cons.mp he with rfl | he'
                    · exact hiD
                    · rcases List.mem_append.mp he' with he'' | he''
                      · by_cases hjI : j ∈ sf.infected
                        · rw [if_pos hjI] at he''
                          cases he''
                        · rw [if_neg hjI] at he''
                          rcases List.mem_cons.mp he'' with rfl | hc
                          · exact fun hc' => hjI (hDsub hc')
                          · cases hc
                      · exact hfD e (hsfrestMem e he'')
                  · intro i' hi'
                    by_cases hii : i' = i
                    · subst hii
                      simp [Function.update_same]
                    · show Function.update se.act i (se.act i + 1) i' =
                        Function.update sf.act i (se.act i + 1) i'
                      rw [Function.update_noteq hii, Function.update_noteq hii]
                      exact hact i' hi'
                  · show ((((t + r.delay i (se.act i + 1), i) ::
                        (if j ∈ sf.infected then []
                          else [(t + r.delay j 0, j)])) ++ re :
                          List (ℚ × ℕ)) : Multiset (ℚ × ℕ)) = _
                    rw [← Multiset.coe_add, ← Multiset.coe_add, hre2,
                      add_assoc]
                obtain ⟨m, hm⟩ := ih _ _ v hrel' hrun
                exact ⟨m + 1, by rw [runAsync_succ_inr hstepF]; exact hm⟩
          · -- the failure draw: both continue, infected unchanged
            have hdF : ¬ p ≤ r.draw i (sf.act i) := by rw [← hkeq]; exact hd
            have hstepE : asyncStepExact r p θv nl se =
                some (Sum.inr ⟨(t + r.delay i (se.act i + 1), i) :: re,
                  se.infected, Function.update se.act i (se.act i + 1)⟩) := by
              rw [asyncStepExact_eq r p θv nl se t i re hpop]
              rw [if_neg hd, if_neg (not_le.mpr hcardE)]
            have hstepF : asyncStepFast r p θv nl sf =
                some (Sum.inr ⟨(t + r.delay i (se.act i + 1), i) :: sfrest,
                  sf.infected, Function.update sf.act i (se.act i + 1)⟩) := by
              rw [asyncStepFast_eq r p θv nl sf t i sfrest hpopF]
              simp only [hnlI, hkeq]
              rw [if_neg hsub, if_neg hdF, if_neg (not_le.mpr hcard)]
            rw [runAsync_succ_inr hstepE] at hrun
            have hrel' : AsyncRel nl θv
                ⟨(t + r.delay i (se.act i + 1), i) :: re, se.infected,
                  Function.update se.act i (se.act i + 1)⟩
                ⟨(t + r.delay i (se.act i + 1), i) :: sfrest, sf.infected,
                  Function.update sf.act i (se.act i + 1)⟩ := by
              refine ⟨hinf, hcard, hval, ?_, ?_, D, hDsub, hDsat, ?_, ?_, ex,
                ?_, hexD⟩
              · intro e he
                rcases List.mem_cons.mp he with rfl | he'
                · exact hiInf
                · exact hreInf e he'
              · simpa using hndCons
              · intro e he
                rcases List.mem_cons.mp he with rfl | he'
                · exact hiD
                · exact hfD e (hsfrestMem e he')
              · intro i' hi'
                by_cases hii : i' = i
                · subst hii
                  simp [Function.update_same]
                · show Function.update se.act i (se.act i + 1) i' =
                    Function.update sf.act i (se.act i + 1) i'
                  rw [Function.update_noteq hii, Function.update_noteq hii]
                  exact hact i' hi'
              · show (((t + r.delay i (se.act i + 1), i) :: re :
                    List (ℚ × ℕ)) : Multiset (ℚ × ℕ)) = _
                rw [← Multiset.cons_coe, ← Multiset.cons_coe, hre2,
                  Multiset.cons_add]
            obtain ⟨m, hm⟩ := ih _ _ v hrel' hrun
            exact ⟨m + 1, by rw [runAsync_succ_inr hstepF]; exact hm⟩

/-- The asynchronous simulation at the level of the two entry points. -/
theorem estimateAsync_to_fast (source n : ℕ) (nl : List (List ℕ)) (p θ : ℚ)
    (r : AsyncRand) (v : ℚ) (hsrc : source < nl.length)
    (hcl : ∀ lst ∈ nl, ∀ j ∈ lst, j < nl.length)
    (hn : (n : ℚ) = nl.length) (hθ : 1 < θ * nl.length)
    (hex : ∃ fuel, EstimateAsynchronousGossipTime source n nl p θ r fuel = some v) :
    ∃ fuel, FastEstimateAsynchronousGossipTime source n nl p θ r fuel = some v := by
  obtain ⟨fuel, hfuel⟩ := hex
  unfold EstimateAsynchronousGossipTime at hfuel
  unfold FastEstimateAsynchronousGossipTime
  rw [show θ * (n : ℚ) = θ * (nl.length : ℚ) by rw [hn]]
  apply asyncSim_aux r p (θ * nl.length) nl hcl fuel _ _ v ?_ hfuel
  refine ⟨rfl, by simpa using hθ, ?_, ?_, by simp [asyncInit], ∅,
    Finset.empty_subset _, ?_, ?_, fun i _ => rfl, 0, by simp, ?_⟩
  · intro i hi
    have his : i = source := by simpa [asyncInit] using hi
    subst his
    exact hsrc
  · intro e he
    rcases List.mem_cons.mp he with rfl | h
    · simp [asyncInit]
    · cases h
  · intro d hd
    exact absurd hd (Finset.not_mem_empty d)
  · intro e _ hc
    exact Finset.not_mem_empty _ hc
  · intro e he
    cases he

/-- C1 (amended): on topologies where every neighbor list is nonempty and
every neighbor entry is a valid node, the exact and fast synchronous
spreaders return the same value at every fuel; and when additionally
`number_of_nodes` equals the topology size and the threshold requires more
than one node, every crossing time returned by the exact asynchronous
spreader is also returned by the fast one — so whenever both terminate they
agree.  On an empty neighbor list the exact variant crashes while the fast
one answers, refuting the claim as stated. -/
theorem c1_exact_fast_equivalence :
    (∀ (source n : ℕ) (nl : List (List ℕ)) (p θ : ℚ) (r : SyncRand)
        (fuel : ℕ), source < nl.length → (∀ lst ∈ nl, lst ≠ []) →
        (∀ lst ∈ nl, ∀ j ∈ lst, j < nl.length) →
        EstimateSynchronousGossipTime source n nl p θ r fuel =
          FastEstimateSynchronousGossipTime source n nl p θ r fuel) ∧
    (∀ (source n : ℕ) (nl : List (List ℕ)) (p θ : ℚ) (r : AsyncRand) (v : ℚ),
        source < nl.length → (∀ lst ∈ nl, ∀ j ∈ lst, j < nl.length) →
        (n : ℚ) = nl.length → 1 < θ * nl.length →
        (∃ fuel, EstimateAsynchronousGossipTime source n nl p θ r fuel = some v) →
        ∃ fuel, FastEstimateAsynchronousGossipTime source n nl p θ r fuel = some v) :=
  ⟨fun source n nl p θ r fuel h1 h2 h3 =>
      estimateSync_eq_fast source n nl p θ r fuel h1 h2 h3,
    fun source n nl p θ r v h1 h2 h3 h4 h5 =>
      estimateAsync_to_fast source n nl p θ r v h1 h2 h3 h4 h5⟩

/-- C1 counterexample: on the one-node topology whose single neighbor list
is empty the exact synchronous spreader crashes (`none`) while the fast one
returns round 1, so the two variants disagree. -/
theorem c1_counterexample :
    EstimateSynchronousGossipTime 0 1 [[]] 0 1 crHalf 3 ≠
      FastEstimateSynchronousGossipTime 0 1 [[]] 0 1 crHalf 3 := by decide

theorem c1_witness :
    EstimateSynchronousGossipTime 0 3 [[1], [0, 2], [1]] 0 1 crLine 10 =
      FastEstimateSynchronousGossipTime 0 3 [[1], [0, 2], [1]] 0 1 crLine 10 ∧
    (∃ fuel, FastEstimateAsynchronousGossipTime 0 3 [[1], [0, 2], [1]] 0 1
      caSeq fuel = some 3) := by
  constructor
  · exact c1_exact_fast_equivalence.1 0 3 [[1], [0, 2], [1]] 0 1 crLine 10
      (by decide) (by decide) (by decide)
  · exact c1_exact_fast_equivalence.2 0 3 [[1], [0, 2], [1]] 0 1 caSeq 3
      (by decide) (by decide) (by decide) (by decide) ⟨8, by decide⟩

/-- C2: in the exact synchronous spreader, every push decision and neighbor
selection of round `t` is a function of the round index and the node alone,
evaluated over the start-of-round infected set (a node infected during the
round makes no push until the next round), the round's targets are merged
afterwards, and the call returns `T` exactly when round `T` is the first
round whose merged infected set reaches `end_criteria * number_of_nodes`
(the code reads the node count as `len(neighbor_list)`). -/
theorem c2_sync_exact_semantics (r : SyncRand) (p θ : ℚ) (nl : List (List ℕ))
    (source n fuel : ℕ) (hn : (n : ℚ) = nl.length) :
    (∀ (t : ℕ) (l : List ℕ) (acc N : Finset ℕ),
      syncRoundExact r p nl t l acc = some N ↔
        ((∀ i ∈ l, p ≤ r.draw t i → (chosenOf r nl t i).isSome) ∧
          N = acc ∪ (roundTargets r p nl t l).toFinset)) ∧
    (∀ T, EstimateSynchronousGossipTime source n nl p θ r fuel = some T ↔
      (0 < T ∧ T ≤ fuel ∧
        (∃ J, trajSyncExact r p nl source T = some J ∧
          θ * n ≤ ((J.card : ℚ))) ∧
        ∀ k, 0 < k → k < T →
          ∃ J, trajSyncExact r p nl source k = some J ∧
            ¬ θ * n ≤ ((J.card : ℚ)))) := by
  constructor
  · intro t
    exact syncRoundExact_eq_some_iff r p nl t
  · intro T
    have h := runSyncExact_char r p θ nl source fuel 0 {source} rfl T
    rw [hn]
    simpa using h

theorem c2_witness :
    EstimateSynchronousGossipTime 0 2 [[1], [0]] 0 1 crHalf 5 = some 1 := by
  refine ((c2_sync_exact_semantics crHalf 0 1 [[1], [0]] 0 2 5 (by decide)).2 1).mpr
    ⟨by decide, by decide, ⟨{0, 1}, by decide, by decide⟩, ?_⟩
  intro k hk1 hk2
  omega

/-- C3: each iteration of the exact asynchronous spreader pops the earliest
event `(t, i)` of the heap (a lexicographic lower bound of all pending
events); it performs one push attempt — succeeding when the draw passes the
failure probability, onto a uniformly chosen neighbor `j` — checks the
threshold `end_criteria * len(neighbor_list)` against the infected set
immediately after this single event's effect and returns `t` when met;
otherwise it reschedules `i` at `t + Exponential(1.0)` and schedules `j`'s
first activation at `t + Exponential(1.0)` exactly when `j` was previously
uninfected. -/
theorem c3_async_exact_step (r : AsyncRand) (p θ : ℚ) (nl : List (List ℕ))
    (s : AsyncState) (t : ℚ) (i : ℕ) (rest : List (ℚ × ℕ))
    (hpop : popMin s.heap = some ((t, i), rest)) :
    (∀ e ∈ s.heap, lexLe (t, i) e) ∧
    (∀ (lst : List ℕ) (j : ℕ), p ≤ r.draw i (s.act i) →
      nl[i]? = some lst → pickNeighbor lst (r.choose i (s.act i)) = some j →
      (θ * nl.length ≤ (((insert j s.infected).card : ℚ)) →
        asyncStepExact r p (θ * nl.length) nl s = some (Sum.inl t)) ∧
      (¬ θ * nl.length ≤ (((insert j s.infected).card : ℚ)) →
        asyncStepExact r p (θ * nl.length) nl s = some (Sum.inr
          ⟨(t + r.delay i (s.act i + 1), i) ::
            (if j ∈ s.infected then [] else [(t + r.delay j 0, j)]) ++ rest,
            insert j s.infected, Function.update s.act i (s.act i + 1)⟩))) ∧
    (¬ p ≤ r.draw i (s.act i) →
      (θ * nl.length ≤ ((s.infected.card : ℚ)) →
        asyncStepExact r p (θ * nl.length) nl s = some (Sum.inl t)) ∧
      (¬ θ * nl.length ≤ ((s.infected.card : ℚ)) →
        asyncStepExact r p (θ * nl.length) nl s = some (Sum.inr
          ⟨(t + r.delay i (s.act i + 1), i) :: rest, s.infected,
            Function.update s.act i (s.act i + 1)⟩))) := by
  refine ⟨popMin_min hpop, ?_, ?_⟩
  · intro lst j hd hnl hpick
    rw [asyncStepExact_eq r p (θ * nl.length) nl s t i rest hpop]
    constructor
    · intro hcross
      simp only [hd, if_true, hnl, hpick]
      rw [if_pos hcross]
    · intro hcross
      simp only [hd, if_true, hnl, hpick]
      rw [if_neg hcross]
  · intro hd
    rw [asyncStepExact_eq r p (θ * nl.length) nl s t i rest hpop]
    constructor
    · intro hcross
      rw [if_neg hd, if_pos hcross]
    · intro hcross
      rw [if_neg hd, if_neg hcross]

theorem c3_witness :
    asyncStepExact caHalf 0 (1 * (([[1], [0]] : List (List ℕ)).length : ℚ))
      [[1], [0]] (asyncInit caHalf 0) = some (Sum.inl 1) := by
  have h := c3_async_exact_step caHalf 0 1 [[1], [0]] (asyncInit caHalf 0)
    1 0 [] (by decide)
  exact (h.2.1 [1] 1 (by decide) (by decide) (by decide)).1 (by decide)

theorem asyncStepExact_inr_infected {r : AsyncRand} {p θv : ℚ}
    {nl : List (List ℕ)} {s s' : AsyncState}
    (h : asyncStepExact r p θv nl s = some (Sum.inr s')) :
    s.infected ⊆ s'.infected := by
  cases hpop : popMin s.heap with
  | none => rw [asyncStepExact_none_of_empty hpop] at h; cases h
  | some pr =>
    obtain ⟨⟨t, i⟩, rest⟩ := pr
    rw [asyncStepExact_eq r p θv nl s t i rest hpop] at h
    by_cases hd : p ≤ r.draw i (s.act i)
    · rw [if_pos hd] at h
      cases hnl : nl[i]? with
      | none => simp [hnl] at h
      | some lst =>
        cases hpick : pickNeighbor lst (r.choose i (s.act i)) with
        | none => simp [hnl, hpick] at h
        | some j =>
          simp only [hnl, hpick] at h
          by_cases hcross : θv ≤ (((insert j s.infected).card : ℚ))
          · rw [if_pos hcross] at h; cases h
          · rw [if_neg hcross] at h
            simp only [Option.some_inj, Sum.inr.injEq] at h
            rw [← h]
            exact Finset.subset_insert j _
    · rw [if_neg hd] at h
      by_cases hcross : θv ≤ ((s.infected.card : ℚ))
      · rw [if_pos hcross] at h; cases h
      · rw [if_neg hcross] at h
        simp only [Option.some_inj, Sum.inr.injEq] at h
        rw [← h]

theorem asyncStepFast_inr_infected {r : AsyncRand} {p θv : ℚ}
    {nl : List (List ℕ)} {s s' : AsyncState}
    (h : asyncStepFast r p θv nl s = some (Sum.inr s')) :
    s.infected ⊆ s'.infected := by
  cases hpop : popMin s.heap with
  | none =>
    unfold asyncStepFast at h
    rw [hpop] at h
    cases h
  | some pr =>
    obtain ⟨⟨t, i⟩, rest⟩ := pr
    rw [asyncStepFast_eq r p θv nl s t i rest hpop] at h
    cases hnl : nl[i]? with
    | none => simp [hnl] at h
    | some lst =>
      simp only [hnl] at h
      by_cases hsub : lst.toFinset ⊆ s.infected
      · rw [if_pos hsub] at h
        simp only [Option.some_inj, Sum.inr.injEq] at h
        rw [← h]
      · rw [if_neg hsub] at h
        by_cases hd : p ≤ r.draw i (s.act i)
        · rw [if_pos hd] at h
          cases hpick : pickNeighbor lst (r.choose i (s.act i)) with
          | none => simp [hpick] at h
          | some j =>
            simp only [hpick] at h
            by_cases hcross : θv ≤ (((insert j s.infected).card : ℚ))
            · rw [if_pos hcross] at h; cases h
            · rw [if_neg hcross] at h
              simp only [Option.some_inj, Sum.inr.injEq] at h
              rw [← h]
              exact Finset.subset_insert j _
        · rw [if_neg hd] at h
          by_cases hcross : θv ≤ ((s.infected.card : ℚ))
          · rw [if_pos hcross] at h; cases h
          · rw [if_neg hcross] at h
            simp only [Option.some_inj, Sum.inr.injEq] at h
            rw [← h]

/-- C5: in all four spreader variants the infected set, and hence its size,
never decreases: across successive rounds of the synchronous trajectories
(exact and fast) and across every continuing step of the asynchronous
steppers (exact and fast). -/
theorem c5_infected_monotone :
    (∀ (r : SyncRand) (p : ℚ) (nl : List (List ℕ)) (source k : ℕ)
        (I I' : Finset ℕ), trajSyncExact r p nl source k = some I →
        trajSyncExact r p nl source (k + 1) = some I' →
        I ⊆ I' ∧ I.card ≤ I'.card) ∧
    (∀ (r : SyncRand) (p : ℚ) (nl : List (List ℕ)) (source k : ℕ)
        (s s' : Finset ℕ × Finset ℕ), trajSyncFast r p nl source k = some s →
        trajSyncFast r p nl source (k + 1) = some s' →
        s.1 ⊆ s'.1 ∧ s.1.card ≤ s'.1.card) ∧
    (∀ (r : AsyncRand) (p θv : ℚ) (nl : List (List ℕ)) (s s' : AsyncState),
        asyncStepExact r p θv nl s = some (Sum.inr s') →
        s.infected ⊆ s'.infected ∧ s.infected.card ≤ s'.infected.card) ∧
    (∀ (r : AsyncRand) (p θv : ℚ) (nl : List (List ℕ)) (s s' : AsyncState),
        asyncStepFast r p θv nl s = some (Sum.inr s') →
        s.infected ⊆ s'.infected ∧ s.infected.card ≤ s'.infected.card) := by
  refine ⟨?_, ?_, ?_, ?_⟩
  · intro r p nl source k I I' hk hk1
    rw [trajSyncExact, hk] at hk1
    simp only [Option.bind_eq_bind, Option.some_bind] at hk1
    cases hr : syncRoundExact r p nl k (sortNodes I) ∅ with
    | none => rw [hr] at hk1; cases hk1
    | some newly =>
      rw [hr] at hk1
      simp only [Option.map_some', Option.some_inj] at hk1
      rw [← hk1]
      exact ⟨Finset.subset_union_left,
        Finset.card_le_card Finset.subset_union_left⟩
  · intro r p nl source k s s' hk hk1
    rw [trajSyncFast, hk] at hk1
    simp only [Option.bind_eq_bind, Option.some_bind] at hk1
    cases hr : syncRoundFast r p nl k (sortNodes s.2) s.1 ∅ ∅ with
    | none => rw [hr] at hk1; cases hk1
    | some z =>
      obtain ⟨J', u', w'⟩ := z
      rw [hr] at hk1
      simp only [Option.map_some', Option.some_inj] at hk1
      obtain ⟨hJ, -, -, -, -, -, -⟩ :=
        syncRoundFast_spec r p nl k (sortNodes s.2) s.1 ∅ ∅ J' u' w' hr
      rw [← hk1]
      exact ⟨hJ, Finset.card_le_card hJ⟩
  · intro r p θv nl s s' h
    exact ⟨asyncStepExact_inr_infected h,
      Finset.card_le_card (asyncStepExact_inr_infected h)⟩
  · intro r p θv nl s s' h
    exact ⟨asyncStepFast_inr_infected h,
      Finset.card_le_card (asyncStepFast_inr_infected h)⟩

theorem c5_witness :
    (({0} : Finset ℕ) ⊆ ({0, 1} : Finset ℕ)) ∧
    (({0} : Finset ℕ) ⊆ insert 1 ({0} : Finset ℕ)) ∧
    ((asyncInit caHalf 0).infected ⊆ insert 1 ({0} : Finset ℕ)) ∧
    ((asyncInit caHalf 0).infected ⊆ ({0} : Finset ℕ)) := by
  refine ⟨?_, ?_, ?_, ?_⟩
  · exact (c5_infected_monotone.1 crHalf 0 [[1], [0]] 0 0 {0} {0, 1}
      rfl (by decide)).1
  · exact (c5_infected_monotone.2.1 crHalf 0 [[1], [0]] 0 0 ({0}, {0})
      (insert 1 {0}, ({0} ∪ insert 1 ∅) \ ∅) rfl rfl).1
  · exact (c5_infected_monotone.2.2.1 caHalf 0 5 [[1], [0]]
      (asyncInit caHalf 0)
      ⟨[(0 + 1 + 1, 0), (0 + 1 + 1, 1)], insert 1 {0},
        Function.update (fun _ => 0) 0 (0 + 1)⟩ rfl).1
  · exact (c5_infected_monotone.2.2.2 caHalf 0 5 [[0]]
      (asyncInit caHalf 0) ⟨[], {0}, fun _ => 0⟩ rfl).1

/-- C4 (amended): when the threshold is at most one node — in particular
with `end_criteria = 1/N`, met by the initial infected set — the synchronous
spreader returns 1, not 0: the threshold is only checked after the first
round has run and the round counter has been incremented. -/
theorem c4_threshold_boundary_amended (source n : ℕ) (nl : List (List ℕ))
    (p θ : ℚ) (r : SyncRand) (fuel : ℕ) (lst : List ℕ)
    (hl : nl[source]? = some lst) (hne : lst ≠ [])
    (hθ : θ * nl.length ≤ 1) :
    EstimateSynchronousGossipTime source n nl p θ r (fuel + 1) = some 1 := by
  unfold EstimateSynchronousGossipTime
  have hsort : sortNodes ({source} : Finset ℕ) = [source] :=
    sortNodes_singleton source
  have hone : ∀ newly : Finset ℕ,
      θ * nl.length ≤ ((((({source} : Finset ℕ) ∪ newly)).card : ℚ)) := by
    intro newly
    refine hθ.trans ?_
    have h1 : 1 ≤ (({source} : Finset ℕ) ∪ newly).card :=
      Finset.card_pos.mpr ⟨source, Finset.mem_union_left _ (Finset.mem_singleton_self source)⟩
    exact_mod_cast h1
  by_cases hd : p ≤ r.draw 0 source
  · obtain ⟨j, hj⟩ := Option.isSome_iff_exists.mp
      (pickNeighbor_isSome lst (r.choose 0 source) hne)
    have hround : syncRoundExact r p nl 0 [source] ∅ = some (insert j ∅) := by
      simp [syncRoundExact, hd, hl, hj]
    simp only [runSyncExact, hsort, hround]
    rw [if_pos (hone (insert j ∅))]
  · have hround : syncRoundExact r p nl 0 [source] ∅ = some ∅ := by
      simp [syncRoundExact, hd]
    simp only [runSyncExact, hsort, hround]
    rw [if_pos (hone ∅)]

/-- C4 counterexample: with two nodes, `end_criteria = 1/2 = 1/N` and no
successful pushes, the synchronous spreader returns 1, not 0. -/
theorem c4_counterexample :
    EstimateSynchronousGossipTime 0 2 [[1], [0]] 1 (1 / 2) crHalf 5 ≠
      some 0 := by decide

theorem c4_witness :
    EstimateSynchronousGossipTime 0 2 [[1], [0]] 1 (1 / 2) crHalf 5 =
      some 1 := by
  exact c4_threshold_boundary_amended 0 2 [[1], [0]] 1 (1 / 2) crHalf 4 [1]
    (by decide) (by decide) (by decide)

theorem syncRoundExact_allfail (r : SyncRand) (p : ℚ) (nl : List (List ℕ))
    (t : ℕ) (hf : ∀ i, r.draw t i < p) :
    ∀ (l : List ℕ) (acc : Finset ℕ), syncRoundExact r p nl t l acc = some acc := by
  intro l
  induction l with
  | nil => intro acc; rfl
  | cons i rest ih =>
    intro acc
    have hd : ¬ p ≤ r.draw t i := not_le.mpr (hf i)
    simp [syncRoundExact, hd, ih]

theorem runSyncExact_allfail (r : SyncRand) (p θ : ℚ) (nl : List (List ℕ))
    (hf : ∀ t i, r.draw t i < p) :
    ∀ (fuel t : ℕ) (I : Finset ℕ), ¬ θ * nl.length ≤ ((I.card : ℚ)) →
      runSyncExact r p θ nl fuel t I = none := by
  intro fuel
  induction fuel with
  | zero => intro t I _; rfl
  | succ n ih =>
    intro t I hI
    have hround := syncRoundExact_allfail r p nl t (hf t) (sortNodes I) ∅
    simp only [runSyncExact, hround, Finset.union_empty]
    rw [if_neg hI]
    exact ih (t + 1) I hI

theorem syncRoundFast_allfail (r : SyncRand) (p : ℚ) (nl : List (List ℕ))
    (t : ℕ) (hf : ∀ i, r.draw t i < p) :
    ∀ (l : List ℕ) (J u w : Finset ℕ), (∀ i ∈ l, i < nl.length) →
      ∃ u', syncRoundFast r p nl t l J u w = some (J, u', w) := by
  intro l
  induction l with
  | nil => intro J u w _; exact ⟨u, rfl⟩
  | cons i rest ih =>
    intro J u w hv
    have hi : i < nl.length := hv i (by simp)
    have hnl : nl[i]? = some nl[i] := List.getElem?_eq_getElem hi
    by_cases hsub : (nl[i]).toFinset ⊆ J
    · obtain ⟨u', hu'⟩ := ih J (insert i u) w (fun x hx => hv x (by simp [hx]))
      exact ⟨u', by simp only [syncRoundFast, hnl]; rw [if_pos hsub]; exact hu'⟩
    · obtain ⟨u', hu'⟩ := ih J u w (fun x hx => hv x (by simp [hx]))
      have hd : ¬ p ≤ r.draw t i := not_le.mpr (hf i)
      exact ⟨u', by
        simp only [syncRoundFast, hnl]
        rw [if_neg hsub, if_neg hd]
        exact hu'⟩

theorem runSyncFast_allfail (r : SyncRand) (p θ : ℚ) (nl : List (List ℕ))
    (hf : ∀ t i, r.draw t i < p) :
    ∀ (fuel t : ℕ) (I F : Finset ℕ), (∀ i ∈ F, i < nl.length) →
      ¬ θ * nl.length ≤ ((I.card : ℚ)) →
      runSyncFast r p θ nl fuel t I F = none := by
  intro fuel
  induction fuel with
  | zero => intro t I F _ _; rfl
  | succ n ih =>
    intro t I F hFv hI
    obtain ⟨u', hu'⟩ := syncRoundFast_allfail r p nl t (hf t) (sortNodes F)
      I ∅ ∅ (fun i hi => hFv i (mem_sortNodes.mp hi))
    simp only [runSyncFast, hu']
    rw [if_neg hI]
    apply ih (t + 1) I ((F ∪ ∅) \ u') ?_ hI
    intro x hx
    rcases Finset.mem_sdiff.mp hx with ⟨hx1, -⟩
    exact hFv x (by simpa using hx1)

theorem runAsyncExact_allfail (r : AsyncRand) (p θv : ℚ) (nl : List (List ℕ))
    (hf : ∀ i k, r.draw i k < p) :
    ∀ (fuel : ℕ) (s : AsyncState), ¬ θv ≤ ((s.infected.card : ℚ)) →
      runAsync (asyncStepExact r p θv nl) fuel s = none := by
  intro fuel
  induction fuel with
  | zero => intro s _; rfl
  | succ n ih =>
    intro s hI
    cases hpop : popMin s.heap with
    | none => exact runAsync_succ_none (asyncStepExact_none_of_empty hpop)
    | some pr =>
      obtain ⟨⟨t, i⟩, rest⟩ := pr
      have hd : ¬ p ≤ r.draw i (s.act i) := not_le.mpr (hf i _)
      have hstep : asyncStepExact r p θv nl s = some (Sum.inr
          ⟨(t + r.delay i (s.act i + 1), i) :: rest, s.infected,
            Function.update s.act i (s.act i + 1)⟩) := by
        rw [asyncStepExact_eq r p θv nl s t i rest hpop]
        rw [if_neg hd, if_neg hI]
      rw [runAsync_succ_inr hstep]
      exact ih _ hI

theorem runAsyncFast_allfail (r : AsyncRand) (p θv : ℚ) (nl : List (List ℕ))
    (hf : ∀ i k, r.draw i k < p) :
    ∀ (fuel : ℕ) (s : AsyncState), ¬ θv ≤ ((s.infected.card : ℚ)) →
      runAsync (asyncStepFast r p θv nl) fuel s = none := by
  intro fuel
  induction fuel with
  | zero => intro s _; rfl
  | succ n ih =>
    intro s hI
    cases hpop : popMin s.heap with
    | none =>
      have hstep : asyncStepFast r p θv nl s = none := by
        unfold asyncStepFast
        rw [hpop]
      exact runAsync_succ_none hstep
    | some pr =>
      obtain ⟨⟨t, i⟩, rest⟩ := pr
      cases hnl : nl[i]? with
      | none =>
        have hstep : asyncStepFast r p θv nl s = none := by
          rw [asyncStepFast_eq r p θv nl s t i rest hpop]
          simp [hnl]
        exact runAsync_succ_none hstep
      | some lst =>
        by_cases hsub : lst.toFinset ⊆ s.infected
        · have hstep : asyncStepFast r p θv nl s =
              some (Sum.inr ⟨rest, s.infected, s.act⟩) := by
            rw [asyncStepFast_eq r p θv nl s t i rest hpop]
            simp [hnl, hsub]
          rw [runAsync_succ_inr hstep]
          exact ih _ hI
        · have hd : ¬ p ≤ r.draw i (s.act i) := not_le.mpr (hf i _)
          have hstep : asyncStepFast r p θv nl s = some (Sum.inr
              ⟨(t + r.delay i (s.act i + 1), i) :: rest, s.infected,
                Function.update s.act i (s.act i + 1)⟩) := by
            rw [asyncStepFast_eq r p θv nl s t i rest hpop]
            simp only [hnl]
            rw [if_neg hsub, if_neg hd, if_neg hI]
          rw [runAsync_succ_inr hstep]
          exact ih _ hI

/-- C9 (amended): when every uniform draw is below the failure probability —
as with `p = 1` and draws in `[0,1)` — no push attempt ever succeeds in any
of the four variants; when the threshold requires more than one node, none
of them ever returns a crossing round/time.  There is no stall-detection
bound: the loops simply never terminate, so the fuel-indexed embeddings
yield `none` at every fuel.  When instead the threshold is at most one node,
the spreader does return (see the counterexample), refuting "never returns"
as stated. -/
theorem c9_full_failure (source n : ℕ) (nl : List (List ℕ)) (p θ : ℚ)
    (rs : SyncRand) (ra : AsyncRand)
    (hfs : ∀ t i, rs.draw t i < p) (hfa : ∀ i k, ra.draw i k < p)
    (hsrc : source < nl.length) (hθ : 1 < θ * nl.length) (hθn : 1 < θ * n) :
    ∀ fuel : ℕ,
      EstimateSynchronousGossipTime source n nl p θ rs fuel = none ∧
      FastEstimateSynchronousGossipTime source n nl p θ rs fuel = none ∧
      EstimateAsynchronousGossipTime source n nl p θ ra fuel = none ∧
      FastEstimateAsynchronousGossipTime source n nl p θ ra fuel = none := by
  intro fuel
  have hcard : ¬ θ * nl.length ≤ ((({source} : Finset ℕ).card : ℚ)) := by
    simp only [Finset.card_singleton, Nat.cast_one]
    exact not_le.mpr hθ
  have hcardn : ¬ θ * n ≤ ((({source} : Finset ℕ).card : ℚ)) := by
    simp only [Finset.card_singleton, Nat.cast_one]
    exact not_le.mpr hθn
  refine ⟨runSyncExact_allfail rs p θ nl hfs fuel 0 {source} hcard,
    runSyncFast_allfail rs p θ nl hfs fuel 0 {source} {source} ?_ hcard,
    runAsyncExact_allfail ra p (θ * nl.length) nl hfa fuel (asyncInit ra source) hcard,
    runAsyncFast_allfail ra p (θ * n) nl hfa fuel (asyncInit ra source) hcardn⟩
  intro i hi
  have his : i = source := by simpa using hi
  subst his
  exact hsrc

/-- C9 counterexample: with `failure_probability = 1` (draws of one half
always fail) but a threshold of one quarter of two nodes, the synchronous
spreader does return the crossing round 1 — it does not "never return", and
no stall-detection condition exists. -/
theorem c9_counterexample :
    EstimateSynchronousGossipTime 0 2 [[1], [0]] 1 (1 / 4) crHalf 5 =
      some 1 := by decide

theorem c9_witness :
    EstimateSynchronousGossipTime 0 2 [[1], [0]] 1 1 crHalf 7 = none ∧
    FastEstimateSynchronousGossipTime 0 2 [[1], [0]] 1 1 crHalf 7 = none ∧
    EstimateAsynchronousGossipTime 0 2 [[1], [0]] 1 1 caHalf 7 = none ∧
    FastEstimateAsynchronousGossipTime 0 2 [[1], [0]] 1 1 caHalf 7 = none :=
  c9_full_failure 0 2 [[1], [0]] 1 1 crHalf caHalf
    (fun t i => by norm_num [crHalf]) (fun i k => by norm_num [caHalf])
    (by decide) (by decide) (by decide) 7

/-- Frontier invariants along the fast synchronous trajectory: the frontier
is a subset of the infected set, and every infected node outside the
frontier is saturated. -/
theorem trajSyncFast_invariant (r : SyncRand) (p : ℚ) (nl : List (List ℕ))
    (source : ℕ) : ∀ (k : ℕ) (s : Finset ℕ × Finset ℕ),
      trajSyncFast r p nl source k = some s →
      s.2 ⊆ s.1 ∧ ∀ i ∈ s.1, i ∉ s.2 → Saturated nl s.1 i := by
  intro k
  induction k with
  | zero =>
    intro s hs
    injection hs with hs
    subst hs
    exact ⟨Finset.Subset.refl _, fun i hi hi' => absurd hi hi'⟩
  | succ m ih =>
    intro s hs
    rw [trajSyncFast] at hs
    cases hm : trajSyncFast r p nl source m with
    | none => rw [hm] at hs; cases hs
    | some s0 =>
      rw [hm] at hs
      simp only [Option.bind_eq_bind, Option.some_bind] at hs
      cases hr : syncRoundFast r p nl m (sortNodes s0.2) s0.1 ∅ ∅ with
      | none => rw [hr] at hs; cases hs
      | some z =>
        obtain ⟨J', u', w'⟩ := z
        rw [hr] at hs
        simp only [Option.map_some', Option.some_inj] at hs
        obtain ⟨hFI, hsat⟩ := ih s0 hm
        obtain ⟨hJ, -, -, -, hwJ, hnew, hul⟩ :=
          syncRoundFast_spec r p nl m (sortNodes s0.2) s0.1 ∅ ∅ J' u' w' hr
        rw [← hs]
        constructor
        · intro x hx
          rcases Finset.mem_sdiff.mp hx with ⟨hx1, -⟩
          rcases Finset.mem_union.mp hx1 with hx2 | hx2
          · exact hJ (hFI hx2)
          · simpa using hwJ hx2
        · intro x hxJ hxF
          by_cases hxu : x ∈ u'
          · rcases hul x hxu with h0 | h0
            · exact absurd h0 (Finset.not_mem_empty x)
            · exact h0
          · have hxFw : x ∉ s0.2 ∪ w' := fun hc =>
              hxF (Finset.mem_sdiff.mpr ⟨hc, hxu⟩)
            have hxI : x ∈ s0.1 := by
              by_contra hxI
              exact hxFw (Finset.mem_union_right _
                (hnew (Finset.mem_sdiff.mpr ⟨hxJ, hxI⟩)))
            have hxFonly : x ∉ s0.2 := fun hc =>
              hxFw (Finset.mem_union_left _ hc)
            exact (hsat x hxI hxFonly).mono hJ

/-- C6 (amended): at every round boundary of the fast synchronous spreader
the frontier (`useful_node_set`) is a subset of the infected set and every
infected node outside the frontier is saturated; on well-formed topologies
skipping those nodes never changes the computed stopping time — the fast
spreader equals the exact one.  The further claim that a removed node is
never again scheduled or considered fails: a node removed as saturated
re-enters the frontier when some push chooses it again (it is then detected
as useless once more and performs no push); see the counterexample. -/
theorem c6_frontier_invariant :
    (∀ (r : SyncRand) (p : ℚ) (nl : List (List ℕ)) (source k : ℕ)
        (s : Finset ℕ × Finset ℕ), trajSyncFast r p nl source k = some s →
        s.2 ⊆ s.1 ∧ ∀ i ∈ s.1, i ∉ s.2 → Saturated nl s.1 i) ∧
    (∀ (source n : ℕ) (nl : List (List ℕ)) (p θ : ℚ) (r : SyncRand)
        (fuel : ℕ), source < nl.length → (∀ lst ∈ nl, lst ≠ []) →
        (∀ lst ∈ nl, ∀ j ∈ lst, j < nl.length) →
        FastEstimateSynchronousGossipTime source n nl p θ r fuel =
          EstimateSynchronousGossipTime source n nl p θ r fuel) :=
  ⟨fun r p nl source k => trajSyncFast_invariant r p nl source k,
    fun source n nl p θ r fuel h1 h2 h3 =>
      (estimateSync_eq_fast source n nl p θ r fuel h1 h2 h3).symm⟩

/-- C6 counterexample: on the path 0 – 1 – 2 with every choice index 0, node
0 is outside the frontier at the start of round 2 (it was removed as
saturated) but re-enters it at the start of round 3, because round 2's push
by node 1 chooses node 0 and the code adds the chosen node to the
newly-infected set unconditionally. -/
theorem c6_counterexample :
    (trajSyncFast crHalf 0 [[1], [0, 2], [1]] 0 2).map
        (fun s => decide (0 ∈ s.2)) = some false ∧
    (trajSyncFast crHalf 0 [[1], [0, 2], [1]] 0 3).map
        (fun s => decide (0 ∈ s.2)) = some true := by
  exact ⟨by decide, by decide⟩

theorem c6_witness :
    (({0} : Finset ℕ) ⊆ ({0} : Finset ℕ)) ∧
    FastEstimateSynchronousGossipTime 0 3 [[1], [0, 2], [1]] 0 1 crLine 10 =
      EstimateSynchronousGossipTime 0 3 [[1], [0, 2], [1]] 0 1 crLine 10 := by
  constructor
  · exact (c6_frontier_invariant.1 crHalf 0 [[1], [0, 2], [1]] 0 0
      ({0}, {0}) rfl).1
  · exact c6_frontier_invariant.2 0 3 [[1], [0, 2], [1]] 0 1 crLine 10
      (by decide) (by decide) (by decide)

/-- C7: contrary to the claim, the exact spreaders do not treat an empty
neighbor list as "attempt nothing this step": on the one-node topology with
no neighbors they crash (`none`, modelling the `ValueError` that
`np.random.choice([])` raises) at the first successful draw, for every fuel,
while the fast synchronous variant skips the node as saturated and returns
round 1. -/
theorem c7_empty_neighborhood :
    (∀ fuel, EstimateSynchronousGossipTime 0 1 [[]] 0 1 crHalf fuel = none) ∧
    FastEstimateSynchronousGossipTime 0 1 [[]] 0 1 crHalf 1 = some 1 ∧
    (∀ fuel, EstimateAsynchronousGossipTime 0 1 [[]] 0 1 caHalf fuel = none) := by
  refine ⟨?_, by decide, ?_⟩
  · intro fuel
    cases fuel with
    | zero => rfl
    | succ m =>
      have hround : syncRoundExact crHalf 0 ([[]] : List (List ℕ)) 0
          (sortNodes {0}) ∅ = none := by decide
      unfold EstimateSynchronousGossipTime
      simp only [runSyncExact, hround]
  · intro fuel
    cases fuel with
    | zero => rfl
    | succ m =>
      have hstep : asyncStepExact caHalf 0
          (1 * ((([[]] : List (List ℕ)).length : ℕ) : ℚ)) [[]]
          (asyncInit caHalf 0) = none := rfl
      unfold EstimateAsynchronousGossipTime
      exact runAsync_succ_none hstep

/-- C8: no spreader performs parameter validation: with the invalid failure
probability `-1` the synchronous spreader returns normally (round 1), and
with the out-of-range source node 5 it crashes with an index error (`none`);
neither input produces an InvalidParameter failure. -/
theorem c8_no_parameter_validation :
    EstimateSynchronousGossipTime 0 2 [[1], [0]] (-1) 1 crHalf 5 = some 1 ∧
    EstimateSynchronousGossipTime 5 2 [[1], [0]] 0 1 crHalf 5 = none := by
  exact ⟨by decide, by decide⟩

/-- C10: the two synchronous spreaders and the exact asynchronous spreader
compute their threshold from `len(neighbor_list)` and never read
`number_of_nodes`, so their results are independent of it; only
`FastEstimateAsynchronousGossipTime` reads `number_of_nodes` in its
threshold check — at the same inputs it returns a crossing time for
`number_of_nodes = 2` and never returns for `number_of_nodes = 3`. -/
theorem c10_number_of_nodes_independence :
    (∀ (source n1 n2 : ℕ) (nl : List (List ℕ)) (p θ : ℚ) (r : SyncRand)
        (fuel : ℕ),
      EstimateSynchronousGossipTime source n1 nl p θ r fuel =
        EstimateSynchronousGossipTime source n2 nl p θ r fuel) ∧
    (∀ (source n1 n2 : ℕ) (nl : List (List ℕ)) (p θ : ℚ) (r : SyncRand)
        (fuel : ℕ),
      FastEstimateSynchronousGossipTime source n1 nl p θ r fuel =
        FastEstimateSynchronousGossipTime source n2 nl p θ r fuel) ∧
    (∀ (source n1 n2 : ℕ) (nl : List (List ℕ)) (p θ : ℚ) (r : AsyncRand)
        (fuel : ℕ),
      EstimateAsynchronousGossipTime source n1 nl p θ r fuel =
        EstimateAsynchronousGossipTime source n2 nl p θ r fuel) ∧
    (FastEstimateAsynchronousGossipTime 0 2 [[1], [0]] 0 1 caHalf 5 = some 1 ∧
      FastEstimateAsynchronousGossipTime 0 3 [[1], [0]] 0 1 caHalf 5 = none) :=
  ⟨fun _ _ _ _ _ _ _ _ => rfl, fun _ _ _ _ _ _ _ _ => rfl,
    fun _ _ _ _ _ _ _ _ => rfl, by decide, by decide⟩

end Gossip
